import Mathlib

/-! Odd-even transposition sort (`omp_odd_even2.c`).

A shallow embedding of `Odd_even`, `Get_args` and `main` from
`omp_odd_even2.c`, followed by the properties established about them.

Conventions of the embedding:

* C `int` values are mathematical integers; every arithmetic operation on a
  loop counter goes through `int32`, which fails (`none`) when the result
  leaves the 32-bit range (signed overflow is undefined behaviour in C);
* the array `a` is a `List Int`; `load` and `store` fail (`none`) on an index
  outside the list;
* every loop takes a fuel argument; `Odd_even` supplies it;
* each run also returns the list of `Event`s it went through (assignments to
  the loop counters, evaluated comparisons, performed swaps);
* the execution by a team of threads (`Odd_even_par`) is a step relation on the
  shared array and the private states of the threads: one step is one memory
  access of one thread, an interleaving is the list of the threads that step,
  and consecutive phases are separated by the barrier of `omp for`.
-/

namespace OddEven

/-! ## Machine integers and array accesses -/

/-- Largest value of a 32-bit C `int`. -/
def INT_MAX : Int := 2147483647

/-- Smallest value of a 32-bit C `int`. -/
def INT_MIN : Int := -2147483648

/-- Result of an `int` computation: the value itself when it is representable
in 32 bits, failure otherwise. -/
def int32 (x : Int) : Option Int :=
  if INT_MIN ≤ x ∧ x ≤ INT_MAX then some x else none

/-- Array read `a[i]`; fails when `i` is not an index of `a`. -/
def load (a : List Int) (i : Int) : Option Int :=
  if 0 ≤ i then a.get? i.toNat else none

/-- Array write `a[i] = v`; fails when `i` is not an index of `a`. -/
def store (a : List Int) (i : Int) (v : Int) : Option (List Int) :=
  if 0 ≤ i ∧ i.toNat < a.length then some (a.set i.toNat v) else none

/-- Observable steps of a run of `Odd_even`. -/
inductive Event where
  /-- The counter `phase` received this value. -/
  | phase (v : Int)
  /-- The counter `i` received this value. -/
  | idx (v : Int)
  /-- The comparison `a[l] > a[r]` was evaluated. -/
  | cmp (l r : Int)
  /-- The elements at `l` and `r` were exchanged. -/
  | swap (l r : Int)
  deriving DecidableEq, Repr

/-! ## `Odd_even` (lines 156-181) -/

/-- Body of the even-phase loop (lines 165-169):
`if (a[i-1] > a[i]) { tmp = a[i-1]; a[i-1] = a[i]; a[i] = tmp; }`. -/
def evenBody (i : Int) (a : List Int) : Option (List Int × List Event) := do
  let l ← int32 (i - 1)
  let x ← load a l
  let y ← load a i
  if x > y then
    let tmp ← load a l
    let v ← load a i
    let a1 ← store a l v
    let a2 ← store a1 i tmp
    pure (a2, [Event.cmp l i, Event.swap l i])
  else
    pure (a, [Event.cmp l i])

/-- Body of the odd-phase loop (lines 174-178):
`if (a[i] > a[i+1]) { tmp = a[i+1]; a[i+1] = a[i]; a[i] = tmp; }`. -/
def oddBody (i : Int) (a : List Int) : Option (List Int × List Event) := do
  let r ← int32 (i + 1)
  let x ← load a i
  let y ← load a r
  if x > y then
    let tmp ← load a r
    let v ← load a i
    let a1 ← store a r v
    let a2 ← store a1 i tmp
    pure (a2, [Event.cmp i r, Event.swap i r])
  else
    pure (a, [Event.cmp i r])

/-- The loop `for (...; i < n; i += 2)` of an even phase (line 164), entered
with the current value of `i`. -/
def evenLoop : Nat → Int → Int → List Int → Option (List Int × List Event)
  | 0, _, _, _ => none
  | fuel + 1, n, i, a =>
    if i < n then do
      let (a1, e1) ← evenBody i a
      let i2 ← int32 (i + 2)
      let (a2, e2) ← evenLoop fuel n i2 a1
      pure (a2, e1 ++ Event.idx i2 :: e2)
    else
      pure (a, [])

/-- The loop `for (...; i < n-1; i += 2)` of an odd phase (line 173), entered
with the current value of `i`. -/
def oddLoop : Nat → Int → Int → List Int → Option (List Int × List Event)
  | 0, _, _, _ => none
  | fuel + 1, n, i, a => do
    let m ← int32 (n - 1)
    if i < m then do
      let (a1, e1) ← oddBody i a
      let i2 ← int32 (i + 2)
      let (a2, e2) ← oddLoop fuel n i2 a1
      pure (a2, e1 ++ Event.idx i2 :: e2)
    else
      pure (a, [])

/-- One iteration of the outer loop (lines 162-179): the pass selected by
`phase % 2`, with `i` initialised to 1. -/
def phaseBody (n phase : Int) (a : List Int) : Option (List Int × List Event) := do
  let (a1, e1) ←
    if Int.tmod phase 2 = 0 then evenLoop (n.toNat + 1) n 1 a
    else oddLoop (n.toNat + 1) n 1 a
  pure (a1, Event.idx 1 :: e1)

/-- The outer loop `for (...; phase < bound; phase++)` (line 161), entered with
the current value of `phase`. In the program `bound` is `n`. -/
def phaseLoop : Nat → Int → Int → Int → List Int → Option (List Int × List Event)
  | 0, _, _, _, _ => none
  | fuel + 1, bound, n, phase, a =>
    if phase < bound then do
      let (a1, e1) ← phaseBody n phase a
      let p2 ← int32 (phase + 1)
      let (a2, e2) ← phaseLoop fuel bound n p2 a1
      pure (a2, e1 ++ Event.phase p2 :: e2)
    else
      pure (a, [])

/-- The first `bound` phases of `Odd_even(a, n)`: the function with its outer
loop condition `phase < n` replaced by `phase < bound`. -/
def Odd_even_upto (bound : Int) (a : List Int) (n : Int) :
    Option (List Int × List Event) := do
  let (a1, e1) ← phaseLoop (bound.toNat + 1) bound n 0 a
  pure (a1, Event.phase 0 :: e1)

/-- The function `Odd_even(a, n)`: final array and events, or `none` when an
access is out of bounds or a counter overflows. -/
def Odd_even (a : List Int) (n : Int) : Option (List Int × List Event) :=
  Odd_even_upto n a n

/-! ## Order of the compare-exchanges within one phase -/

/-- The values of `i` at which the loop header `for (...; i < n; i += 2)` of an
even phase runs the body, from the current value of `i` on. -/
def evenIndices : Nat → Int → Int → List Int
  | 0, _, _ => []
  | fuel + 1, n, i => if i < n then i :: evenIndices fuel n (i + 2) else []

/-- The values of `i` at which the loop header `for (...; i < n-1; i += 2)` of
an odd phase runs the body, from the current value of `i` on. -/
def oddIndices : Nat → Int → Int → List Int
  | 0, _, _ => []
  | fuel + 1, n, i => if i < n - 1 then i :: oddIndices fuel n (i + 2) else []

/-- The loop iterations (values of `i`) of the phase numbered `phase`, in
increasing order. -/
def phaseIndices (n phase : Int) : List Int :=
  if Int.tmod phase 2 = 0 then evenIndices (n.toNat + 1) n 1
  else oddIndices (n.toNat + 1) n 1

/-- The effect on the array of one loop iteration of the phase numbered
`phase`, at the value `i`. -/
def bodyOf (phase i : Int) (a : List Int) : Option (List Int) :=
  (if Int.tmod phase 2 = 0 then evenBody i a else oddBody i a).map Prod.fst

/-- The loop iterations of one phase executed one after another in the given
order of `i` values. -/
def runInOrder (phase : Int) : List Int → List Int → Option (List Int)
  | [], a => some a
  | i :: rest, a => (bodyOf phase i a).bind (runInOrder phase rest)

/-- Compare-exchange of the elements at positions `k` and `k+1` of a list. -/
def cexAt : Nat → List Int → List Int
  | 0, x :: y :: r => if x > y then y :: x :: r else x :: y :: r
  | k + 1, x :: r => x :: cexAt k r
  | _, l => l

/-- Position of the left element of the pair handled at `i` in phase `p`. -/
def pairPos (p : Nat) (i : Int) : Nat :=
  if p % 2 = 0 then (i - 1).toNat else i.toNat

/-- The value `i` is an iteration of phase `p` on an array with `n` slots. -/
def GoodIndex (p : Nat) (n : Int) (i : Int) : Prop :=
  i % 2 = 1 ∧ 1 ≤ i ∧ (if p % 2 = 0 then i < n else i + 1 < n)

/-! ## `Get_args` (lines 89-102) and `main` (lines 39-68) -/

/-- Steps of `main` that are visible from outside, in program order. -/
inductive Action where
  /-- The call `Usage(argv[0])`: the usage message on stderr. -/
  | usage (prog : String)
  /-- The call `exit(code)`: the program terminates here. -/
  | exit (code : Int)
  /-- The allocation `malloc(n*sizeof(int))`. -/
  | malloc (n : Int)
  /-- The call `Generate_list(a, n)`. -/
  | generate (n : Int)
  /-- The call `Read_list(a, n)`. -/
  | read (n : Int)
  /-- The call `Odd_even(a, n)` on the list `a`, with its result. -/
  | sort (a : List Int) (n : Int) (result : Option (List Int))
  /-- The `printf` of the elapsed time. -/
  | report
  /-- The call `free(a)`. -/
  | free
  deriving DecidableEq, Repr

/-- The values `Get_args` stores: `thread_count`, `*n_p` and `*g_i_p`. -/
structure Args where
  /-- The global `thread_count`. -/
  thread_count : Int
  /-- The list size `n`. -/
  n : Int
  /-- The mode character. -/
  g_i : Char
  deriving DecidableEq, Repr

/-- The string `argv[k]` (empty when `argv` is shorter). -/
def argAt (argv : List String) (k : Nat) : String := argv.getD k ""

/-- The character `s[0]` of a C string: its first character, NUL when the
string is empty. -/
def firstChar (s : String) : Char := s.toList.headD (Char.ofNat 0)

/-- The function `Get_args`. The library function `strtol` is a parameter:
`strtol s` is the value of `strtol(s, NULL, 10)` as stored in an `int`.
An error result carries the steps taken before the program terminated. -/
def Get_args (strtol : String → Int) (argc : Int) (argv : List String) :
    Except (List Action) Args :=
  if argc ≠ 4 then
    Except.error [Action.usage (argAt argv 0), Action.exit 0]
  else
    let thread_count := strtol (argAt argv 1)
    let n := strtol (argAt argv 2)
    let g_i := firstChar (argAt argv 3)
    if n ≤ 0 ∨ (g_i ≠ 'g' ∧ g_i ≠ 'i') then
      Except.error [Action.usage (argAt argv 0), Action.exit 0]
    else
      Except.ok { thread_count := thread_count, n := n, g_i := g_i }

/-- Reading of a string of decimal digits; it stands for `strtol` where a
concrete function is needed. -/
def decimal (s : String) : Int :=
  s.toList.foldl (fun acc c => 10 * acc + ((c.toNat : Int) - 48)) 0

/-- The function `main`, as the list of its visible steps. The contents
produced by `Generate_list` and `Read_list` (random numbers, standard input)
are the parameters `Generate_list` and `Read_list`. -/
def main (strtol : String → Int) (Generate_list Read_list : Int → List Int)
    (argc : Int) (argv : List String) : List Action :=
  match Get_args strtol argc argv with
  | Except.error steps => steps
  | Except.ok args =>
    let fill := if args.g_i = 'g' then Action.generate args.n else Action.read args.n
    let a := if args.g_i = 'g' then Generate_list args.n else Read_list args.n
    [Action.malloc args.n, fill,
      Action.sort a args.n ((Odd_even a args.n).map Prod.fst),
      Action.report, Action.free]

/-- The arguments are rejected: wrong argument count, non-positive `n`, or a
mode character that is neither `g` nor `i`. -/
def BadArgs (strtol : String → Int) (argc : Int) (argv : List String) : Prop :=
  argc ≠ 4 ∨ strtol (argAt argv 2) ≤ 0 ∨
    (firstChar (argAt argv 3) ≠ 'g' ∧ firstChar (argAt argv 3) ≠ 'i')

instance (strtol : String → Int) (argc : Int) (argv : List String) :
    Decidable (BadArgs strtol argc argv) := by
  unfold BadArgs
  infer_instance

/-! ## Functional description of the passes

List-recursive counterparts of the loops above; the refinement lemmas below
show that the loops compute exactly these. -/

/-- Compare-exchange of the adjacent pairs `(0,1), (2,3), ...` of a list. -/
def evenPass : List Int → List Int
  | x :: y :: r => if x > y then y :: x :: evenPass r else x :: y :: evenPass r
  | l => l

/-- Compare-exchange of the adjacent pairs `(1,2), (3,4), ...` of a list. -/
def oddPass : List Int → List Int
  | [] => []
  | x :: r => x :: evenPass r

/-- Events of the even-phase loop entered at `i`, where the list holds the
elements from index `i-1` on. -/
def evenEvents (i : Int) : List Int → List Event
  | x :: y :: r =>
    (if x > y then [Event.cmp (i - 1) i, Event.swap (i - 1) i] else [Event.cmp (i - 1) i])
      ++ Event.idx (i + 2) :: evenEvents (i + 2) r
  | _ => []

/-- Events of the odd-phase loop entered at `i`, where the list holds the
elements from index `i` on. -/
def oddEvents (i : Int) : List Int → List Event
  | x :: y :: r =>
    (if x > y then [Event.cmp i (i + 1), Event.swap i (i + 1)] else [Event.cmp i (i + 1)])
      ++ Event.idx (i + 2) :: oddEvents (i + 2) r
  | _ => []

/-- The pass of phase number `p`. -/
def pass (p : Nat) (a : List Int) : List Int :=
  if p % 2 = 0 then evenPass a else oddPass a

/-- Events of the pass of phase number `p`. -/
def passEvents (p : Nat) (a : List Int) : List Event :=
  Event.idx 1 :: (if p % 2 = 0 then evenEvents 1 a else oddEvents 1 a.tail)

/-- The `k` passes of phase numbers `p, p+1, ..., p+k-1`, in this order. -/
def passes : Nat → Nat → List Int → List Int
  | _, 0, a => a
  | p, k + 1, a => passes (p + 1) k (pass p a)

/-- Events of the `k` phases of numbers `p, ..., p+k-1`. -/
def passesEvents : Nat → Nat → List Int → List Event
  | _, 0, _ => []
  | p, k + 1, a =>
    passEvents p a ++ Event.phase ((p : Int) + 1) :: passesEvents (p + 1) k (pass p a)

/-! ## Predicates and measures used in the statements -/

/-- Number of elements `≤ v` among the first `L` elements of `l`. -/
def leCount (v : Int) (L : Nat) (l : List Int) : Nat :=
  (l.take L).countP (fun x => decide (x ≤ v))

/-- The array is non-decreasing: `a[i-1] ≤ a[i]` for every `1 ≤ i ≤ N-1`. -/
def NonDecreasing (b : List Int) : Prop :=
  ∀ i : Nat, i < b.length → 1 ≤ i → b.getD (i - 1) 0 ≤ b.getD i 0

instance (b : List Int) : Decidable (NonDecreasing b) := by
  unfold NonDecreasing
  infer_instance

/-- Number of elements `≤ v` in the whole list. -/
def leTotal (v : Int) (l : List Int) : Nat :=
  l.countP (fun x => decide (x ≤ v))

/-- Invariant of the counting argument after `t` phases: for every `j` up to the
number of elements `≤ v`, at least `j` of them lie among the first
`max j (c + 2j - t)` positions. -/
def CountInv (v : Int) (c t : Nat) (l : List Int) : Prop :=
  ∀ j : Nat, 1 ≤ j → j ≤ leTotal v l → j ≤ leCount v (max j (c + 2 * j - t)) l

/-- The index pairs `(l, r)` of the comparisons `a[l] > a[r]` evaluated in a
run, in order. -/
def comparisons (ev : List Event) : List (Int × Int) :=
  ev.filterMap fun e =>
    match e with
    | Event.cmp l r => some (l, r)
    | _ => none

/-- Range condition on one event of a run over an array with `n` slots:
compared and swapped indices lie in `0..n-1`, a value of `i` is odd and lies in
`1..n+1`, a value of `phase` lies in `0..n`. -/
def EventOK (n : Int) : Event → Prop
  | Event.cmp l r => 0 ≤ l ∧ l < n ∧ 0 ≤ r ∧ r < n
  | Event.swap l r => 0 ≤ l ∧ l < n ∧ 0 ≤ r ∧ r < n
  | Event.idx v => 1 ≤ v ∧ v ≤ n + 1 ∧ v % 2 = 1
  | Event.phase v => 0 ≤ v ∧ v ≤ n

/-- The bound on the loop counters as the specification states it: every value
taken by `i` or by `phase` during the run is at most `n`. -/
def CountersAtMost (n : Int) (ev : List Event) : Prop :=
  ∀ v : Int, (Event.idx v ∈ ev ∨ Event.phase v ∈ ev) → v ≤ n

/-- The array is strictly descending: `a[i] < a[i-1]` for every `1 ≤ i ≤ N-1`. -/
def StrictlyDescending (a : List Int) : Prop :=
  ∀ i : Nat, i < a.length → 1 ≤ i → a.getD i 0 < a.getD (i - 1) 0

instance (a : List Int) : Decidable (StrictlyDescending a) := by
  unfold StrictlyDescending
  infer_instance

/-- Threshold map of the zero-one argument: 1 on the values `≥ t`, 0 below. -/
def thresh (t : Int) (x : Int) : Int := if t ≤ x then 1 else 0

/-- The zero-one array `0^u 1 0 1 0^w`. -/
def twoOnes (u w : Nat) : List Int :=
  List.replicate u 0 ++ 1 :: 0 :: 1 :: List.replicate w 0

/-! ## Threads: the phases of `Odd_even` under `#pragma omp parallel` / `omp for`

Within a phase the loop iterations are divided among the threads of the team;
each thread executes its iterations one memory access at a time, and the
accesses of different threads interleave in an arbitrary order. The implicit
barrier at the end of `omp for` separates consecutive phases. -/

/-- Private state of one thread within a phase: the iterations (values of `i`)
it still has to execute, the current one first; the position inside the body of
the current iteration; the private `tmp` and the two values held while an
expression is evaluated. -/
structure Thread where
  /-- Iterations not finished yet, the current one first. -/
  todo : List Int
  /-- Number of memory accesses of the current iteration already performed. -/
  pc : Nat
  /-- Value read for the left operand of the comparison. -/
  r1 : Int
  /-- The private variable `tmp`. -/
  tmp : Int
  /-- Value read for the right-hand side of the second assignment. -/
  r3 : Int

/-- A thread that has been given the iterations `l` and has not started. -/
def Thread.start (l : List Int) : Thread :=
  { todo := l, pc := 0, r1 := 0, tmp := 0, r3 := 0 }

/-- The thread after it has finished its current iteration. -/
def Thread.next (th : Thread) : Thread :=
  { th with todo := th.todo.tail, pc := 0 }

/-- One memory access of the body
`if (a[l] > a[r]) { tmp = a[f]; a[f] = a[s]; a[s] = tmp; }`:
the reads of `a[l]` and `a[r]` (followed by the branch), the read of `a[f]`
into `tmp`, the read of `a[s]`, the write of `a[f]`, the write of `a[s]`. -/
def microOp (l r f s : Int) (th : Thread) (a : List Int) : Option (List Int × Thread) :=
  match th.pc with
  | 0 => (load a l).map fun x => (a, { th with pc := 1, r1 := x })
  | 1 => (load a r).map fun y => (a, if th.r1 > y then { th with pc := 2 } else th.next)
  | 2 => (load a f).map fun x => (a, { th with pc := 3, tmp := x })
  | 3 => (load a s).map fun y => (a, { th with pc := 4, r3 := y })
  | 4 => (store a f th.r3).map fun a1 => (a1, { th with pc := 5 })
  | _ => (store a s th.tmp).map fun a1 => (a1, th.next)

/-- One memory access of a thread in the phase numbered `phase`: of the body of
lines 165-169 in an even phase, of lines 174-178 in an odd phase. A thread
without iterations left waits at the barrier. -/
def threadStep (phase : Int) (th : Thread) (a : List Int) : Option (List Int × Thread) :=
  match th.todo with
  | [] => some (a, th)
  | i :: _ =>
    if Int.tmod phase 2 = 0 then
      (int32 (i - 1)).bind fun l => microOp l i l i th a
    else
      (int32 (i + 1)).bind fun r => microOp i r r i th a

/-- State of a phase in execution: the shared array and the private state of
every thread. -/
structure Conc where
  /-- The shared array. -/
  a : List Int
  /-- Private state of each thread, by thread number. -/
  threads : Nat → Thread

/-- The thread numbered `tid` of a team of `T` threads performs its next memory
access. -/
def Conc.step (phase : Int) (T : Nat) (tid : Nat) (s : Conc) : Option Conc :=
  if tid < T then
    (threadStep phase (s.threads tid) s.a).map fun r =>
      { a := r.1, threads := fun u => if u = tid then r.2 else s.threads u }
  else some s

/-- Execution of a phase along an interleaving, given as the list of the
thread numbers that take the successive steps. -/
def runSchedule (phase : Int) (T : Nat) : List Nat → Conc → Option Conc
  | [], s => some s
  | tid :: rest, s => (Conc.step phase T tid s).bind (runSchedule phase T rest)

/-- How the runtime executes one phase: the iterations given to each thread (in
the order in which the thread executes them) and the interleaving of the
threads. -/
structure PhasePlan where
  /-- Iterations of each thread, by thread number. -/
  assign : List (List Int)
  /-- Interleaving: thread numbers in the order of their steps. -/
  sched : List Nat

/-- Steps that let every thread that is still at work reach the barrier: six
per assigned iteration, thread after thread. -/
def drain (assign : List (List Int)) : List Nat :=
  (List.range assign.length).flatMap fun t =>
    List.replicate (6 * (assign.getD t []).length) t

/-- One phase executed by a team of `T` threads according to `plan`: the
interleaving `plan.sched`, after which every thread runs on to the barrier. -/
def parPhase (phase : Int) (T : Nat) (plan : PhasePlan) (a : List Int) : Option (List Int) :=
  (runSchedule phase T (plan.sched ++ drain plan.assign)
    { a := a, threads := fun t => Thread.start (plan.assign.getD t []) }).map (fun s => s.a)

/-- The outer loop of `Odd_even` executed by a team of threads: phase after
phase, each according to its plan. -/
def parLoop (T : Nat) (plans : Nat → PhasePlan) :
    Nat → Int → Int → List Int → Option (List Int)
  | 0, _, _, _ => none
  | fuel + 1, n, phase, a =>
    if phase < n then do
      let a1 ← parPhase phase T (plans phase.toNat) a
      let p2 ← int32 (phase + 1)
      parLoop T plans fuel n p2 a1
    else
      pure a

/-- The function `Odd_even(a, n)` executed with `thread_count` threads, where
`plans k` tells how the runtime executes phase `k`. -/
def Odd_even_par (thread_count : Nat) (plans : Nat → PhasePlan) (a : List Int) (n : Int) :
    Option (List Int) :=
  parLoop thread_count plans (n.toNat + 1) n 0 a

/-- The plan of phase `p` is a legal work distribution for a team of `T`
threads on `n` slots: one list per thread, and every iteration of the loop is
given exactly once. -/
def ValidPlan (T : Nat) (n : Int) (p : Nat) (plan : PhasePlan) : Prop :=
  plan.assign.length = T ∧ plan.assign.flatten.Perm (phaseIndices n p)

instance (T : Nat) (n : Int) (p : Nat) (plan : PhasePlan) :
    Decidable (ValidPlan T n p plan) := by
  unfold ValidPlan
  infer_instance

/-- Every phase `0..n-1` has a legal plan. -/
def ValidPlans (T : Nat) (n : Int) (plans : Nat → PhasePlan) : Prop :=
  ∀ p : Nat, p < n.toNat → ValidPlan T n p (plans p)

instance (T : Nat) (n : Int) (plans : Nat → PhasePlan) :
    Decidable (ValidPlans T n plans) := by
  unfold ValidPlans
  infer_instance

/-- Invariant of the current iteration of a thread, at position `k`, `k+1`
(`lf`: the first assignment reads the left cell, as in an even phase), in
terms of the array `a0` at the start of the phase. -/
def CurInv (a0 a : List Int) (k : Nat) (lf : Bool) (th : Thread) : Prop :=
  match th.pc with
  | 0 => a.getD k 0 = a0.getD k 0 ∧ a.getD (k + 1) 0 = a0.getD (k + 1) 0
  | 1 => a.getD k 0 = a0.getD k 0 ∧ a.getD (k + 1) 0 = a0.getD (k + 1) 0 ∧
      th.r1 = a0.getD k 0
  | 2 => a.getD k 0 = a0.getD k 0 ∧ a.getD (k + 1) 0 = a0.getD (k + 1) 0 ∧
      a0.getD k 0 > a0.getD (k + 1) 0
  | 3 => a.getD k 0 = a0.getD k 0 ∧ a.getD (k + 1) 0 = a0.getD (k + 1) 0 ∧
      a0.getD k 0 > a0.getD (k + 1) 0 ∧
      th.tmp = (if lf then a0.getD k 0 else a0.getD (k + 1) 0)
  | 4 => a.getD k 0 = a0.getD k 0 ∧ a.getD (k + 1) 0 = a0.getD (k + 1) 0 ∧
      a0.getD k 0 > a0.getD (k + 1) 0 ∧
      th.tmp = (if lf then a0.getD k 0 else a0.getD (k + 1) 0) ∧
      th.r3 = (if lf then a0.getD (k + 1) 0 else a0.getD k 0)
  | 5 => a.getD k 0 = (if lf then a0.getD (k + 1) 0 else a0.getD k 0) ∧
      a.getD (k + 1) 0 = (if lf then a0.getD (k + 1) 0 else a0.getD k 0) ∧
      a0.getD k 0 > a0.getD (k + 1) 0 ∧
      th.tmp = (if lf then a0.getD k 0 else a0.getD (k + 1) 0)
  | _ => False

/-- Invariant of a thread: its current iteration satisfies `CurInv`, and the
cells of its later iterations still hold their initial values. -/
def ThreadInv (a0 a : List Int) (p : Nat) (th : Thread) : Prop :=
  match th.todo with
  | [] => True
  | i :: rest =>
    CurInv a0 a (pairPos p i) (decide (p % 2 = 0)) th ∧
    ∀ j ∈ rest, a.getD (pairPos p j) 0 = a0.getD (pairPos p j) 0 ∧
      a.getD (pairPos p j + 1) 0 = a0.getD (pairPos p j + 1) 0

/-- Invariant of a phase in execution by `T` threads, started on the array
`a0` with the iterations `init t` given to thread `t`. -/
structure PhaseInv (a0 : List Int) (p T : Nat) (init : Nat → List Int) (s : Conc) : Prop where
  /-- The array keeps its length. -/
  len : s.a.length = a0.length
  /-- Pending iterations are iterations of the loop. -/
  good : ∀ t, t < T → ∀ i ∈ (s.threads t).todo, GoodIndex p a0.length i
  /-- No thread holds an iteration twice. -/
  nodup : ∀ t, t < T → (s.threads t).todo.Nodup
  /-- No iteration is held by two threads. -/
  disj : ∀ t1, t1 < T → ∀ t2, t2 < T → t1 ≠ t2 →
    ∀ i ∈ (s.threads t1).todo, i ∉ (s.threads t2).todo
  /-- A thread never holds more iterations than it was given. -/
  bound : ∀ t, t < T → (s.threads t).todo.length ≤ (init t).length
  /-- Every thread satisfies its invariant. -/
  thr : ∀ t, t < T → ThreadInv a0 s.a p (s.threads t)
  /-- Cells of no pending iteration hold their final value. -/
  done : ∀ c, c < a0.length →
    (∀ t, t < T → ∀ i ∈ (s.threads t).todo, c ≠ pairPos p i ∧ c ≠ pairPos p i + 1) →
    s.a.getD c 0 = (pass p a0).getD c 0

/-- Memory accesses a thread still has to perform in the phase. -/
def work (th : Thread) : Nat := 6 * th.todo.length - th.pc

/-! ## Refinement: the loops compute the passes -/

theorem int32_of_mem {x : Int} (h1 : INT_MIN ≤ x) (h2 : x ≤ INT_MAX) : int32 x = some x := by
  simp [int32, h1, h2]

theorem load_append (pre : List Int) (x : Int) (r : List Int) (i : Int)
    (hi : i = pre.length) : load (pre ++ x :: r) i = some x := by
  subst hi
  have h : (pre ++ x :: r).get? pre.length = some x := by
    rw [List.get?_eq_getElem?, List.getElem?_append_right (Nat.le_refl _)]
    simp
  simpa [load] using h

theorem store_append (pre : List Int) (x v : Int) (r : List Int) (i : Int)
    (hi : i = pre.length) : store (pre ++ x :: r) i v = some (pre ++ v :: r) := by
  subst hi
  simp [store]

theorem load_append_succ (pre : List Int) (x y : Int) (r : List Int) (i : Int)
    (hi : i = pre.length + 1) : load (pre ++ x :: y :: r) i = some y := by
  have h := load_append (pre ++ [x]) y r i (by simp [hi])
  simpa using h

theorem store_append_succ (pre : List Int) (x y v : Int) (r : List Int) (i : Int)
    (hi : i = pre.length + 1) :
    store (pre ++ x :: y :: r) i v = some (pre ++ x :: v :: r) := by
  have h := store_append (pre ++ [x]) y v r i (by simp [hi])
  simpa using h

theorem evenBody_append (pre : List Int) (x y : Int) (r : List Int) (i : Int)
    (hi : i = pre.length + 1) (hmax : i ≤ INT_MAX) :
    evenBody i (pre ++ x :: y :: r) =
      some (pre ++ (if x > y then y :: x :: r else x :: y :: r),
        if x > y then [Event.cmp (i - 1) i, Event.swap (i - 1) i]
        else [Event.cmp (i - 1) i]) := by
  have h32 : int32 (i - 1) = some (i - 1) :=
    int32_of_mem (by unfold INT_MIN; omega) (by omega)
  have hl : load (pre ++ x :: y :: r) (i - 1) = some x := load_append _ _ _ _ (by omega)
  have hr : load (pre ++ x :: y :: r) i = some y := load_append_succ _ _ _ _ _ hi
  have hs1 : store (pre ++ x :: y :: r) (i - 1) y = some (pre ++ y :: y :: r) :=
    store_append _ _ _ _ _ (by omega)
  have hs2 : store (pre ++ y :: y :: r) i x = some (pre ++ y :: x :: r) :=
    store_append_succ _ _ _ _ _ _ hi
  unfold evenBody
  by_cases hxy : x > y
  · simp [h32, hl, hr, hs1, hs2, hxy]
  · simp [h32, hl, hr, hxy]

theorem oddBody_append (pre : List Int) (x y : Int) (r : List Int) (i : Int)
    (hi : i = pre.length) (hmax : i + 1 ≤ INT_MAX) :
    oddBody i (pre ++ x :: y :: r) =
      some (pre ++ (if x > y then y :: x :: r else x :: y :: r),
        if x > y then [Event.cmp i (i + 1), Event.swap i (i + 1)]
        else [Event.cmp i (i + 1)]) := by
  have h32 : int32 (i + 1) = some (i + 1) :=
    int32_of_mem (by unfold INT_MIN; omega) (by omega)
  have hl : load (pre ++ x :: y :: r) i = some x := load_append _ _ _ _ hi
  have hr : load (pre ++ x :: y :: r) (i + 1) = some y :=
    load_append_succ _ _ _ _ _ (by omega)
  have hs1 : store (pre ++ x :: y :: r) (i + 1) x = some (pre ++ x :: x :: r) :=
    store_append_succ _ _ _ _ _ _ (by omega)
  have hs2 : store (pre ++ x :: x :: r) i y = some (pre ++ y :: x :: r) :=
    store_append _ _ _ _ _ hi
  unfold oddBody
  by_cases hxy : x > y
  · simp [h32, hl, hr, hs1, hs2, hxy]
  · simp [h32, hl, hr, hxy]

theorem evenLoop_append (fuel : Nat) : ∀ (pre rest : List Int) (n i : Int),
    n = (pre ++ rest).length → i = pre.length + 1 → pre.length % 2 = 0 →
    n ≤ INT_MAX → rest.length < 2 * fuel →
    evenLoop fuel n i (pre ++ rest) = some (pre ++ evenPass rest, evenEvents i rest) := by
  induction fuel with
  | zero => intro pre rest n i _ _ _ _ hf; omega
  | succ fuel ih =>
    intro pre rest n i hn hi hpar hmax hf
    match rest with
    | [] =>
      have : ¬ i < n := by simp at hn; omega
      simp [evenLoop, this, evenPass, evenEvents]
    | [x] =>
      have : ¬ i < n := by simp at hn; omega
      simp [evenLoop, this, evenPass, evenEvents]
    | x :: y :: r =>
      have hlt : i < n := by simp at hn; omega
      have hi2 : i + 2 ≤ INT_MAX := by
        simp at hn
        unfold INT_MAX at hmax ⊢
        omega
      have hb := evenBody_append pre x y r i hi (by omega)
      have h32 : int32 (i + 2) = some (i + 2) :=
        int32_of_mem (by unfold INT_MIN; omega) hi2
      have hrec := ih (pre ++ (if x > y then [y, x] else [x, y])) r n (i + 2)
        (by simp at hn ⊢; split <;> simp <;> omega)
        (by split <;> simp <;> omega)
        (by split <;> simp <;> omega) hmax (by simp at hf; omega)
      by_cases hxy : x > y
      · simp only [hxy, if_true] at hb hrec
        simp only [List.append_assoc, List.cons_append, List.nil_append] at hrec
        simp [evenLoop, hlt, hb, h32, hrec, evenPass, evenEvents, hxy]
      · simp only [hxy, if_false] at hb hrec
        simp only [List.append_assoc, List.cons_append, List.nil_append] at hrec
        simp [evenLoop, hlt, hb, h32, hrec, evenPass, evenEvents, hxy]

theorem oddLoop_append (fuel : Nat) : ∀ (pre rest : List Int) (n i : Int),
    n = (pre ++ rest).length → i = pre.length → pre.length % 2 = 1 →
    n ≤ INT_MAX → rest.length < 2 * fuel →
    oddLoop fuel n i (pre ++ rest) = some (pre ++ evenPass rest, oddEvents i rest) := by
  induction fuel with
  | zero => intro pre rest n i _ _ _ _ hf; omega
  | succ fuel ih =>
    intro pre rest n i hn hi hpar hmax hf
    have hm : int32 (n - 1) = some (n - 1) :=
      int32_of_mem (by unfold INT_MIN; omega) (by omega)
    match rest with
    | [] =>
      have : ¬ i < n - 1 := by simp at hn; omega
      simp [oddLoop, hm, this, evenPass, oddEvents]
    | [x] =>
      have : ¬ i < n - 1 := by simp at hn; omega
      simp [oddLoop, hm, this, evenPass, oddEvents]
    | x :: y :: r =>
      have hlt : i < n - 1 := by simp at hn; omega
      have hi2 : i + 2 ≤ INT_MAX := by
        simp at hn
        unfold INT_MAX at hmax ⊢
        omega
      have hb := oddBody_append pre x y r i hi (by omega)
      have h32 : int32 (i + 2) = some (i + 2) :=
        int32_of_mem (by unfold INT_MIN; omega) hi2
      have hrec := ih (pre ++ (if x > y then [y, x] else [x, y])) r n (i + 2)
        (by simp at hn ⊢; split <;> simp <;> omega)
        (by split <;> simp <;> omega)
        (by split <;> simp <;> omega) hmax (by simp at hf; omega)
      by_cases hxy : x > y
      · simp only [hxy, if_true] at hb hrec
        simp only [List.append_assoc, List.cons_append, List.nil_append] at hrec
        simp [oddLoop, hm, hlt, hb, h32, hrec, evenPass, oddEvents, hxy]
      · simp only [hxy, if_false] at hb hrec
        simp only [List.append_assoc, List.cons_append, List.nil_append] at hrec
        simp [oddLoop, hm, hlt, hb, h32, hrec, evenPass, oddEvents, hxy]

theorem phaseBody_eq (a : List Int) (n : Int) (p : Nat)
    (hn : n = a.length) (hmax : n ≤ INT_MAX) :
    phaseBody n p a = some (pass p a, passEvents p a) := by
  have htm : Int.tmod (p : Int) 2 = (p : Int) % 2 :=
    Int.tmod_eq_emod (by omega) (by omega)
  by_cases hp : p % 2 = 0
  · have h0 : Int.tmod (p : Int) 2 = 0 := by rw [htm]; omega
    have h := evenLoop_append (n.toNat + 1) [] a n 1 (by simpa using hn) (by simp)
      (by simp) hmax (by omega)
    simp only [List.nil_append] at h
    simp [phaseBody, h0, h, pass, passEvents, hp]
  · have h0 : ¬ Int.tmod (p : Int) 2 = 0 := by rw [htm]; omega
    match a with
    | [] =>
      have hn0 : n = 0 := by simpa using hn
      subst hn0
      simp [pass, phaseBody, h0, pass, passEvents, hp, oddLoop, int32, INT_MIN, INT_MAX,
        oddPass, oddEvents]
    | x :: r =>
      have h := oddLoop_append (n.toNat + 1) [x] r n 1 (by simpa using hn) (by simp)
        (by simp) hmax (by simp at hn ⊢; omega)
      simp only [List.singleton_append] at h
      simp [phaseBody, h0, h, pass, passEvents, hp, oddPass]

theorem length_evenPass : ∀ (a : List Int), (evenPass a).length = a.length
  | [] => by simp [evenPass]
  | [_] => by simp [evenPass]
  | x :: y :: r => by
    have := length_evenPass r
    simp only [evenPass]
    split <;> simp [this]

theorem length_oddPass (a : List Int) : (oddPass a).length = a.length := by
  cases a with
  | nil => simp [oddPass]
  | cons x r => simp [oddPass, length_evenPass]

theorem length_pass (p : Nat) (a : List Int) : (pass p a).length = a.length := by
  unfold pass
  split
  · exact length_evenPass a
  · exact length_oddPass a

theorem length_passes : ∀ (k p : Nat) (a : List Int), (passes p k a).length = a.length
  | 0, _, _ => by simp [passes]
  | k + 1, p, a => by
    simp only [passes]
    rw [length_passes k (p + 1) (pass p a), length_pass]

theorem phaseLoop_eq (fuel : Nat) : ∀ (k p : Nat) (bound n : Int) (a : List Int),
    n = a.length → n ≤ INT_MAX → bound = p + k → bound ≤ INT_MAX → k < fuel →
    phaseLoop fuel bound n p a = some (passes p k a, passesEvents p k a) := by
  induction fuel with
  | zero => intro k p bound n a _ _ _ _ hf; omega
  | succ fuel ih =>
    intro k p bound n a hn hmax hb hbmax hf
    match k with
    | 0 =>
      have : ¬ (p : Int) < bound := by omega
      simp [phaseLoop, this, passes, passesEvents]
    | k + 1 =>
      have hlt : (p : Int) < bound := by omega
      have hbody := phaseBody_eq a n p hn hmax
      have h32 : int32 ((p : Int) + 1) = some ((p : Int) + 1) :=
        int32_of_mem (by unfold INT_MIN; omega) (by omega)
      have hrec := ih k (p + 1) bound n (pass p a) (by rw [length_pass]; exact hn) hmax
        (by push_cast; omega) hbmax (by omega)
      simp only [Nat.cast_add, Nat.cast_one] at hrec
      simp [phaseLoop, hlt, hbody, h32, hrec, passes, passesEvents]

/-- Refinement of the embedding by the functional description: on an array
with `n` slots, `n` and `bound` representable, the first `bound` phases return
the passes and their events. -/
theorem Odd_even_upto_eq (a : List Int) (k : Nat) (n : Int)
    (hn : n = a.length) (hmax : n ≤ INT_MAX) (hk : (k : Int) ≤ INT_MAX) :
    Odd_even_upto k a n =
      some (passes 0 k a, Event.phase 0 :: passesEvents 0 k a) := by
  have h := phaseLoop_eq ((k : Int).toNat + 1) k 0 k n a hn hmax (by simp) hk (by simp)
  simp only [Nat.cast_zero, Int.toNat_ofNat] at h
  simp [Odd_even_upto, h]

theorem Odd_even_eq (a : List Int) (n : Int) (hn : n = a.length) (hmax : n ≤ INT_MAX) :
    Odd_even a n =
      some (passes 0 a.length a, Event.phase 0 :: passesEvents 0 a.length a) := by
  subst hn
  exact Odd_even_upto_eq a a.length a.length rfl hmax hmax

/-! ## Counting argument for sortedness -/

theorem leCount_zero (v : Int) (l : List Int) : leCount v 0 l = 0 := by
  simp [leCount]

theorem leCount_nil (v : Int) (L : Nat) : leCount v L [] = 0 := by
  simp [leCount]

theorem leCount_cons (v : Int) (L : Nat) (x : Int) (l : List Int) :
    leCount v (L + 1) (x :: l) = (if x ≤ v then 1 else 0) + leCount v L l := by
  simp only [leCount, List.take_succ_cons, List.countP_cons, decide_eq_true_eq]
  omega

theorem leCount_mono_evenPass (v : Int) : ∀ (l : List Int) (L : Nat),
    leCount v L l ≤ leCount v L (evenPass l)
  | [], L => by simp [evenPass]
  | [_], L => by simp [evenPass]
  | x :: y :: r, L => by
    match L with
    | 0 => simp [leCount_zero]
    | 1 =>
      simp only [evenPass]
      split <;> simp only [leCount_cons, leCount_zero] <;> (try split_ifs) <;> omega
    | L + 2 =>
      have ih := leCount_mono_evenPass v r L
      simp only [evenPass]
      split <;> simp only [leCount_cons] <;> (try split_ifs) <;> omega

theorem leCount_mono_oddPass (v : Int) (l : List Int) (L : Nat) :
    leCount v L l ≤ leCount v L (oddPass l) := by
  match l, L with
  | [], _ => simp [oddPass]
  | x :: r, 0 => simp [leCount_zero]
  | x :: r, L + 1 =>
    have := leCount_mono_evenPass v r L
    simp only [oddPass, leCount_cons]
    omega

theorem leCount_mono_pass (v : Int) (p : Nat) (l : List Int) (L : Nat) :
    leCount v L l ≤ leCount v L (pass p l) := by
  unfold pass
  split
  · exact leCount_mono_evenPass v l L
  · exact leCount_mono_oddPass v l L

theorem leCount_evenPass_key (v : Int) : ∀ (l : List Int) (q : Nat),
    min (leCount v (2 * q) l + 1) (leCount v (2 * q + 2) l)
      ≤ leCount v (2 * q + 1) (evenPass l)
  | [], q => by simp [evenPass, leCount_nil]
  | [x], q => by
    match q with
    | 0 => simp [evenPass, leCount_cons, leCount_zero, leCount_nil]
    | q + 1 =>
      simp only [evenPass, show 2 * (q + 1) = (2 * q + 1) + 1 from by ring, leCount_cons,
        leCount_nil]
      omega
  | x :: y :: r, q => by
    match q with
    | 0 =>
      simp only [evenPass, Nat.mul_zero, Nat.zero_add, leCount_zero]
      split <;> simp only [leCount_cons, leCount_zero] <;> (try split_ifs) <;> omega
    | q + 1 =>
      have ih := leCount_evenPass_key v r q
      simp only [evenPass, show 2 * (q + 1) = (2 * q + 1) + 1 from by ring,
        show 2 * q + 1 + 1 + 2 = (2 * q + 2 + 1) + 1 from by ring,
        show 2 * q + 1 + 1 + 1 = (2 * q + 1 + 1) + 1 from by ring]
      split <;> simp only [leCount_cons] <;> (try split_ifs) <;> omega

theorem leCount_oddPass_key (v : Int) (l : List Int) (q : Nat) :
    min (leCount v (2 * q + 1) l + 1) (leCount v (2 * q + 3) l)
      ≤ leCount v (2 * q + 2) (oddPass l) := by
  match l with
  | [] => simp [oddPass, leCount_nil]
  | x :: r =>
    have h := leCount_evenPass_key v r q
    simp only [oddPass, show 2 * q + 3 = (2 * q + 2) + 1 from by ring,
      show 2 * q + 2 = (2 * q + 1) + 1 from by ring, leCount_cons] at h ⊢
    omega

theorem leCount_pass_key (v : Int) (p : Nat) (l : List Int) (i : Nat)
    (hi : 1 ≤ i) (hpar : (i + p) % 2 = 1) :
    min (leCount v (i - 1) l + 1) (leCount v (i + 1) l) ≤ leCount v i (pass p l) := by
  unfold pass
  split
  · obtain ⟨q, rfl⟩ : ∃ q, i = 2 * q + 1 := ⟨i / 2, by omega⟩
    exact leCount_evenPass_key v l q
  · obtain ⟨q, rfl⟩ : ∃ q, i = 2 * q + 2 := ⟨i / 2 - 1, by omega⟩
    exact leCount_oddPass_key v l q

theorem perm_evenPass : ∀ (a : List Int), (evenPass a).Perm a
  | [] => by simp [evenPass]
  | [_] => by simp [evenPass]
  | x :: y :: r => by
    have ih := perm_evenPass r
    simp only [evenPass]
    split
    · exact (List.Perm.swap x y _).trans ((ih.cons y).cons x)
    · exact (ih.cons y).cons x

theorem perm_oddPass (a : List Int) : (oddPass a).Perm a := by
  cases a with
  | nil => simp [oddPass]
  | cons x r => exact (perm_evenPass r).cons x

theorem perm_pass (p : Nat) (a : List Int) : (pass p a).Perm a := by
  unfold pass
  split
  · exact perm_evenPass a
  · exact perm_oddPass a

theorem perm_passes : ∀ (k p : Nat) (a : List Int), (passes p k a).Perm a
  | 0, _, _ => by simp [passes]
  | k + 1, p, a => by
    simp only [passes]
    exact (perm_passes k (p + 1) (pass p a)).trans (perm_pass p a)

theorem leTotal_pass (v : Int) (p : Nat) (l : List Int) :
    leTotal v (pass p l) = leTotal v l :=
  (perm_pass p l).countP_eq _

theorem leCount_of_length_le (v : Int) (L : Nat) (l : List Int) (h : l.length ≤ L) :
    leCount v L l = leTotal v l := by
  simp [leCount, leTotal, List.take_of_length_le h]

theorem leCount_lower : ∀ (l : List Int) (v : Int) (L : Nat), L ≤ l.length →
    L + leTotal v l ≤ leCount v L l + l.length
  | [], v, L, h => by
    have : L = 0 := by simpa using h
    subst this
    simp [leTotal, leCount]
  | x :: r, v, 0, _ => by
    have := List.countP_le_length (fun x => decide (x ≤ v)) (l := x :: r)
    simp only [leTotal, leCount_zero, Nat.zero_add] at this ⊢
    omega
  | x :: r, v, L + 1, h => by
    have ih := leCount_lower r v L (by simpa using h)
    simp only [leCount_cons, leTotal, List.countP_cons, decide_eq_true_eq,
      List.length_cons] at ih ⊢
    omega

theorem countInv_init (v : Int) (l : List Int) :
    CountInv v (2 * ((l.length - leTotal v l) / 2)) 0 l := by
  intro j hj hjm
  have hm : leTotal v l ≤ l.length := List.countP_le_length _
  by_cases hL : l.length ≤ max j (2 * ((l.length - leTotal v l) / 2) + 2 * j - 0)
  · rw [leCount_of_length_le v _ l hL]
    exact hjm
  · have h := leCount_lower l v (max j (2 * ((l.length - leTotal v l) / 2) + 2 * j - 0))
      (by omega)
    omega

theorem countInv_step (v : Int) (c t : Nat) (l : List Int) (hc : c % 2 = 0)
    (h : CountInv v c t l) : CountInv v c (t + 1) (pass t l) := by
  intro j hj hjm
  rw [leTotal_pass] at hjm
  by_cases hcase : c + 2 * j - t ≤ j
  · have h1 := h j hj hjm
    have e1 : max j (c + 2 * j - t) = j := by omega
    have e2 : max j (c + 2 * j - (t + 1)) = j := by omega
    rw [e1] at h1
    rw [e2]
    exact le_trans h1 (leCount_mono_pass v t l j)
  · have e2 : max j (c + 2 * j - (t + 1)) = c + 2 * j - t - 1 := by omega
    rw [e2]
    have hkey := leCount_pass_key v t l (c + 2 * j - t - 1) (by omega) (by omega)
    have h1 := h j hj hjm
    have e1 : max j (c + 2 * j - t) = c + 2 * j - t - 1 + 1 := by omega
    rw [e1] at h1
    have h0 : j - 1 ≤ leCount v (c + 2 * j - t - 1 - 1) l := by
      by_cases hj1 : j = 1
      · omega
      · have h2 := h (j - 1) (by omega) (by omega)
        have e3 : max (j - 1) (c + 2 * (j - 1) - t) = c + 2 * j - t - 1 - 1 := by omega
        rw [e3] at h2
        exact h2
    omega

theorem countInv_passes (v : Int) (c : Nat) (hc : c % 2 = 0) : ∀ (k t : Nat) (l : List Int),
    CountInv v c t l → CountInv v c (t + k) (passes t k l)
  | 0, t, l, h => by simpa [passes] using h
  | k + 1, t, l, h => by
    have h1 := countInv_step v c t l hc h
    have h2 := countInv_passes v c hc k (t + 1) (pass t l) h1
    simp only [passes]
    rw [show t + (k + 1) = t + 1 + k from by omega]
    exact h2

theorem leCount_full (v : Int) (l : List Int) (j : Nat) (hj : j ≤ leTotal v l) :
    j ≤ leCount v j (passes 0 l.length l) := by
  by_cases hj0 : j = 0
  · omega
  have hinv := countInv_passes v (2 * ((l.length - leTotal v l) / 2)) (by omega)
    l.length 0 l (countInv_init v l)
  have hm : leTotal v l ≤ l.length := List.countP_le_length _
  have ht : leTotal v (passes 0 l.length l) = leTotal v l :=
    (perm_passes l.length 0 l).countP_eq _
  have h := hinv j (by omega) (by rw [ht]; exact hj)
  have e : max j (2 * ((l.length - leTotal v l) / 2) + 2 * j - (0 + l.length)) = j := by
    omega
  rw [e] at h
  exact h

theorem leCount_succ (v : Int) : ∀ (b : List Int) (L : Nat), L < b.length →
    leCount v (L + 1) b = leCount v L b + (if b.getD L 0 ≤ v then 1 else 0)
  | [], L, h => by simp at h
  | x :: r, 0, _ => by simp [leCount_cons, leCount_zero]
  | x :: r, L + 1, h => by
    have ih := leCount_succ v r L (by simpa using h)
    simp only [leCount_cons, ih, List.getD_cons_succ]
    omega

theorem leCount_le (v : Int) (L : Nat) (b : List Int) : leCount v L b ≤ L := by
  have h := List.countP_le_length (fun x => decide (x ≤ v)) (l := b.take L)
  have h2 : (b.take L).length ≤ L := by simp
  exact le_trans h h2

theorem leCount_mono_len (v : Int) : ∀ (b : List Int) (L L2 : Nat), L ≤ L2 →
    leCount v L b ≤ leCount v L2 b
  | [], L, L2, _ => by simp [leCount_nil]
  | x :: r, 0, L2, _ => by simp [leCount_zero]
  | x :: r, L + 1, 0, h => by omega
  | x :: r, L + 1, L2 + 1, h => by
    have ih := leCount_mono_len v r L L2 (by omega)
    simp only [leCount_cons]
    omega

theorem leCount_le_total (v : Int) (L : Nat) (b : List Int) :
    leCount v L b ≤ leTotal v b :=
  List.Sublist.countP_le _ (List.take_sublist L b)

theorem nonDecreasing_of_counts (b : List Int)
    (h : ∀ (v : Int) (j : Nat), j ≤ leTotal v b → j ≤ leCount v j b) :
    NonDecreasing b := by
  intro i hi h1
  by_contra hlt
  obtain ⟨k, rfl⟩ : ∃ k, i = k + 1 := ⟨i - 1, by omega⟩
  simp only [Nat.add_sub_cancel] at hlt
  have e1 := leCount_succ (b.getD (k + 1) 0) b k (by omega)
  have e2 := leCount_succ (b.getD (k + 1) 0) b (k + 1) hi
  rw [if_neg hlt] at e1
  rw [if_pos (le_refl _)] at e2
  have h3 := leCount_le_total (b.getD (k + 1) 0) (k + 1 + 1) b
  have h4 := leCount_le (b.getD (k + 1) 0) k b
  have h5 := h (b.getD (k + 1) 0) (leCount (b.getD (k + 1) 0) k b + 1) (by omega)
  have h6 := leCount_mono_len (b.getD (k + 1) 0) b
    (leCount (b.getD (k + 1) 0) k b + 1) (k + 1) (by omega)
  omega

theorem nonDecreasing_passes (l : List Int) : NonDecreasing (passes 0 l.length l) := by
  apply nonDecreasing_of_counts
  intro v j hj
  have ht : leTotal v (passes 0 l.length l) = leTotal v l :=
    (perm_passes l.length 0 l).countP_eq _
  rw [ht] at hj
  exact leCount_full v l j hj

/-! ## Sortedness and permutation (claims C1, C2) -/

/-- C1: for every array `a` with `n` slots (`n` a C `int`), `Odd_even(a, n)`
returns, keeps the length, and leaves the array non-decreasing: `a[i-1] ≤ a[i]`
for every `1 ≤ i ≤ n-1`. The two scenarios of the specification evaluate as
stated: `[5, 3, 8, 1]` becomes `[1, 3, 5, 8]` and `[9, 8, 7, 6, 5]` becomes
`[5, 6, 7, 8, 9]`. -/
theorem Odd_even_nonDecreasing :
    (∀ (a : List Int) (n : Int), n = a.length → n ≤ INT_MAX →
      ∃ b ev, Odd_even a n = some (b, ev) ∧ b.length = a.length ∧ NonDecreasing b) ∧
    (Odd_even [5, 3, 8, 1] 4).map Prod.fst = some [1, 3, 5, 8] ∧
    (Odd_even [9, 8, 7, 6, 5] 5).map Prod.fst = some [5, 6, 7, 8, 9] := by
  refine ⟨?_, by decide, by decide⟩
  intro a n hn hmax
  exact ⟨_, _, Odd_even_eq a n hn hmax, length_passes _ _ _, nonDecreasing_passes a⟩

/-- Instance of C1 at the array `[3, 1, 2]`. -/
theorem Odd_even_nonDecreasing_witness :
    ∃ b ev, Odd_even [3, 1, 2] 3 = some (b, ev) ∧ b.length = [3, 1, (2 : Int)].length ∧
      NonDecreasing b :=
  Odd_even_nonDecreasing.1 [3, 1, 2] 3 (by decide) (by decide)

/-- C2: for every array `a` with `n` slots, the contents after `Odd_even(a, n)`
are a permutation of the contents before: same length and every value occurs
with the same multiplicity. With duplicates, `[2, 2, 1]` becomes `[1, 2, 2]`. -/
theorem Odd_even_perm :
    (∀ (a : List Int) (n : Int), n = a.length → n ≤ INT_MAX →
      ∃ b ev, Odd_even a n = some (b, ev) ∧ b.Perm a ∧ b.length = a.length ∧
        ∀ v : Int, b.count v = a.count v) ∧
    (Odd_even [2, 2, 1] 3).map Prod.fst = some [1, 2, 2] := by
  refine ⟨?_, by decide⟩
  intro a n hn hmax
  have hp := perm_passes a.length 0 a
  exact ⟨_, _, Odd_even_eq a n hn hmax, hp, hp.length_eq, fun v => hp.count_eq v⟩

/-- Instance of C2 at the array `[4, 4, 0, 4]`. -/
theorem Odd_even_perm_witness :
    ∃ b ev, Odd_even [4, 4, 0, 4] 4 = some (b, ev) ∧ b.Perm [4, 4, 0, 4] ∧
      b.length = [4, 4, 0, (4 : Int)].length ∧
      ∀ v : Int, b.count v = [4, 4, 0, (4 : Int)].count v :=
  Odd_even_perm.1 [4, 4, 0, 4] 4 (by decide) (by decide)

/-! ## Already sorted input (claim C4) -/

theorem nonDecreasing_tail (x : Int) (l : List Int) (h : NonDecreasing (x :: l)) :
    NonDecreasing l := by
  intro i hi h1
  obtain ⟨k, rfl⟩ : ∃ k, i = k + 1 := ⟨i - 1, by omega⟩
  have := h (k + 1 + 1) (by simpa using hi) (by omega)
  simpa using this

theorem nonDecreasing_head (x y : Int) (r : List Int) (h : NonDecreasing (x :: y :: r)) :
    x ≤ y := by
  have := h 1 (by simp) (by omega)
  simpa using this

theorem evenPass_of_nonDecreasing : ∀ (a : List Int), NonDecreasing a → evenPass a = a
  | [], _ => by simp [evenPass]
  | [_], _ => by simp [evenPass]
  | x :: y :: r, h => by
    have hxy := nonDecreasing_head x y r h
    have ih := evenPass_of_nonDecreasing r
      (nonDecreasing_tail y r (nonDecreasing_tail x (y :: r) h))
    have : ¬ x > y := by omega
    simp [evenPass, this, ih]

theorem pass_of_nonDecreasing (p : Nat) (a : List Int) (h : NonDecreasing a) :
    pass p a = a := by
  unfold pass
  split
  · exact evenPass_of_nonDecreasing a h
  · match a with
    | [] => simp [oddPass]
    | x :: r => simp [oddPass, evenPass_of_nonDecreasing r (nonDecreasing_tail x r h)]

theorem passes_of_nonDecreasing : ∀ (k p : Nat) (a : List Int), NonDecreasing a →
    passes p k a = a
  | 0, _, _, _ => by simp [passes]
  | k + 1, p, a, h => by
    simp only [passes, pass_of_nonDecreasing p a h]
    exact passes_of_nonDecreasing k (p + 1) a h

theorem evenEvents_no_swap : ∀ (a : List Int) (i : Int), NonDecreasing a →
    ∀ l r : Int, Event.swap l r ∉ evenEvents i a
  | [], _, _ => by simp [evenEvents]
  | [_], _, _ => by simp [evenEvents]
  | x :: y :: r, i, h => by
    intro l r2
    have hxy := nonDecreasing_head x y r h
    have ih := evenEvents_no_swap r (i + 2)
      (nonDecreasing_tail y r (nonDecreasing_tail x (y :: r) h)) l r2
    have : ¬ x > y := by omega
    simp [evenEvents, this, ih]

theorem oddEvents_no_swap : ∀ (a : List Int) (i : Int), NonDecreasing a →
    ∀ l r : Int, Event.swap l r ∉ oddEvents i a
  | [], _, _ => by simp [oddEvents]
  | [_], _, _ => by simp [oddEvents]
  | x :: y :: r, i, h => by
    intro l r2
    have hxy := nonDecreasing_head x y r h
    have ih := oddEvents_no_swap r (i + 2)
      (nonDecreasing_tail y r (nonDecreasing_tail x (y :: r) h)) l r2
    have : ¬ x > y := by omega
    simp [oddEvents, this, ih]

theorem passEvents_no_swap (p : Nat) (a : List Int) (h : NonDecreasing a) (l r : Int) :
    Event.swap l r ∉ passEvents p a := by
  unfold passEvents
  split
  · simp [evenEvents_no_swap a 1 h l r]
  · match a with
    | [] => simp [oddEvents]
    | x :: t => simp [oddEvents_no_swap t 1 (nonDecreasing_tail x t h) l r]

theorem passesEvents_no_swap : ∀ (k p : Nat) (a : List Int), NonDecreasing a →
    ∀ l r : Int, Event.swap l r ∉ passesEvents p k a
  | 0, _, _, _ => by simp [passesEvents]
  | k + 1, p, a, h => by
    intro l r
    have h1 := passEvents_no_swap p a h l r
    have h2 := passesEvents_no_swap k (p + 1) a h l r
    simp [passesEvents, pass_of_nonDecreasing p a h, h1, h2]

/-- C4: on an array that is already non-decreasing, `Odd_even(a, n)` returns
the same array and performs no swap in any phase; consequently, on any array,
running `Odd_even` on its own result returns that result again. -/
theorem Odd_even_sorted_fixed :
    (∀ (a : List Int) (n : Int), n = a.length → n ≤ INT_MAX → NonDecreasing a →
      ∃ ev, Odd_even a n = some (a, ev) ∧ ∀ l r : Int, Event.swap l r ∉ ev) ∧
    (∀ (a : List Int) (n : Int), n = a.length → n ≤ INT_MAX →
      ∃ b ev ev2, Odd_even a n = some (b, ev) ∧ Odd_even b n = some (b, ev2)) := by
  have first : ∀ (a : List Int) (n : Int), n = a.length → n ≤ INT_MAX → NonDecreasing a →
      ∃ ev, Odd_even a n = some (a, ev) ∧ ∀ l r : Int, Event.swap l r ∉ ev := by
    intro a n hn hmax hs
    refine ⟨Event.phase 0 :: passesEvents 0 a.length a, ?_, ?_⟩
    · rw [Odd_even_eq a n hn hmax, passes_of_nonDecreasing _ _ a hs]
    · intro l r
      simp [passesEvents_no_swap a.length 0 a hs l r]
  refine ⟨first, ?_⟩
  intro a n hn hmax
  have hlen : (passes 0 a.length a).length = a.length := length_passes _ _ _
  obtain ⟨ev2, h2, _⟩ := first (passes 0 a.length a) n (by rw [hlen]; exact hn) hmax
    (nonDecreasing_passes a)
  exact ⟨_, _, ev2, Odd_even_eq a n hn hmax, h2⟩

/-- Instance of C4 at the sorted array `[1, 2, 2, 7]` and at the unsorted array
`[3, 1, 2]`. -/
theorem Odd_even_sorted_fixed_witness :
    (∃ ev, Odd_even [1, 2, 2, 7] 4 = some ([1, 2, 2, 7], ev) ∧
      ∀ l r : Int, Event.swap l r ∉ ev) ∧
    (∃ b ev ev2, Odd_even [3, 1, 2] 3 = some (b, ev) ∧ Odd_even b 3 = some (b, ev2)) :=
  ⟨Odd_even_sorted_fixed.1 [1, 2, 2, 7] 4 (by decide) (by decide) (by decide),
   Odd_even_sorted_fixed.2 [3, 1, 2] 3 (by decide) (by decide)⟩

/-! ## Boundary sizes (claim C5) -/

/-- C5: for `n = 0` and `n = 1` the call leaves the array unchanged and
evaluates no element comparison (no phase at all for `n = 0`; one phase with an
empty loop for `n = 1`); for `n = 2` the whole call evaluates exactly one
comparison, of the pair `(0, 1)` in phase 0, and the loop of phase 1 is empty. -/
theorem Odd_even_boundary :
    (∃ ev, Odd_even [] 0 = some ([], ev) ∧ comparisons ev = [] ∧
      ev = [Event.phase 0]) ∧
    (∀ x : Int, ∃ ev, Odd_even [x] 1 = some ([x], ev) ∧ comparisons ev = [] ∧
      ev = [Event.phase 0, Event.idx 1, Event.phase 1]) ∧
    (∀ x y : Int, ∃ b ev, Odd_even [x, y] 2 = some (b, ev) ∧
      b = (if x > y then [y, x] else [x, y]) ∧
      comparisons ev = [(0, 1)] ∧
      ev = [Event.phase 0, Event.idx 1, Event.cmp 0 1]
            ++ (if x > y then [Event.swap 0 1] else [])
            ++ [Event.idx 3, Event.phase 1, Event.idx 1, Event.phase 2]) := by
  refine ⟨⟨_, by decide, by decide, rfl⟩, ?_, ?_⟩
  · intro x
    refine ⟨_, Odd_even_eq [x] 1 (by simp) (by decide), ?_, ?_⟩
    · simp [passes, pass, evenPass, passesEvents, passEvents, evenEvents, comparisons]
    · simp [passes, pass, evenPass, passesEvents, passEvents, evenEvents]
  · intro x y
    refine ⟨_, _, Odd_even_eq [x, y] 2 (by simp) (by decide), ?_, ?_, ?_⟩
    · by_cases h : x > y <;>
        simp [passes, pass, evenPass, oddPass, h]
    · by_cases h : x > y <;>
        simp [passesEvents, passEvents, pass, evenPass, oddPass, evenEvents, oddEvents,
          comparisons, h]
    · by_cases h : x > y <;>
        simp [passesEvents, passEvents, pass, evenPass, oddPass, evenEvents, oddEvents, h]

/-! ## Post-condition of a single phase (claim C7) -/

theorem evenPass_pair : ∀ (l : List Int) (q : Nat), 2 * q + 1 < l.length →
    (evenPass l).getD (2 * q) 0 ≤ (evenPass l).getD (2 * q + 1) 0
  | [], q, h => by simp at h
  | [_], q, h => by simp at h
  | x :: y :: r, 0, _ => by
    simp only [evenPass]
    split <;> simp <;> omega
  | x :: y :: r, q + 1, h => by
    have ih := evenPass_pair r q (by simp at h; omega)
    simp only [evenPass, show 2 * (q + 1) = 2 * q + 1 + 1 from by ring]
    split <;> simpa using ih

theorem evenPass_last : ∀ (l : List Int), l.length % 2 = 1 →
    (evenPass l).getD (l.length - 1) 0 = l.getD (l.length - 1) 0
  | [], h => by simp at h
  | [_], _ => by simp [evenPass]
  | x :: y :: r, h => by
    have hr : r.length % 2 = 1 := by simp at h; omega
    have ih := evenPass_last r hr
    have e : (x :: y :: r).length - 1 = (r.length - 1) + 1 + 1 := by simp; omega
    rw [e]
    simp only [evenPass]
    split <;> simpa using ih

theorem oddPass_pair (l : List Int) (q : Nat) (h : 2 * q + 2 < l.length) :
    (oddPass l).getD (2 * q + 1) 0 ≤ (oddPass l).getD (2 * q + 2) 0 := by
  match l with
  | [] => simp at h
  | x :: r =>
    have := evenPass_pair r q (by simp at h; omega)
    simpa [oddPass] using this

theorem oddPass_first (l : List Int) : (oddPass l).getD 0 0 = l.getD 0 0 := by
  cases l <;> simp [oddPass]

theorem oddPass_last (l : List Int) (h : l.length % 2 = 0) :
    (oddPass l).getD (l.length - 1) 0 = l.getD (l.length - 1) 0 := by
  match l with
  | [] => simp [oddPass]
  | x :: r =>
    have hr : r.length % 2 = 1 := by simp at h; omega
    have := evenPass_last r hr
    have e : (x :: r).length - 1 = (r.length - 1) + 1 := by simp; omega
    rw [e]
    simpa [oddPass] using this

/-- C7: one phase of `Odd_even` on an array with `n` slots returns an array of
the same length such that: after an even-numbered phase `a[i-1] ≤ a[i]` for
every odd `i < n`, and index `n-1` keeps its value when `n` is odd; after an
odd-numbered phase `a[i] ≤ a[i+1]` for every odd `i < n-1`, index 0 keeps its
value, and index `n-1` keeps its value when `n` is even. -/
theorem phaseBody_post (a : List Int) (n : Int) (p : Nat)
    (hn : n = a.length) (hmax : n ≤ INT_MAX) :
    ∃ b ev, phaseBody n p a = some (b, ev) ∧ b.length = a.length ∧
      (p % 2 = 0 →
        (∀ i : Nat, i % 2 = 1 → (i : Int) < n → b.getD (i - 1) 0 ≤ b.getD i 0) ∧
        (a.length % 2 = 1 → b.getD (a.length - 1) 0 = a.getD (a.length - 1) 0)) ∧
      (p % 2 = 1 →
        (∀ i : Nat, i % 2 = 1 → (i : Int) < n - 1 → b.getD i 0 ≤ b.getD (i + 1) 0) ∧
        b.getD 0 0 = a.getD 0 0 ∧
        (a.length % 2 = 0 → b.getD (a.length - 1) 0 = a.getD (a.length - 1) 0)) := by
  refine ⟨pass p a, passEvents p a, phaseBody_eq a n p hn hmax, length_pass p a, ?_, ?_⟩
  · intro hp
    simp only [pass, hp, if_true]
    refine ⟨?_, evenPass_last a⟩
    intro i hi hlt
    obtain ⟨q, rfl⟩ : ∃ q, i = 2 * q + 1 := ⟨i / 2, by omega⟩
    exact evenPass_pair a q (by omega)
  · intro hp
    have hp0 : ¬ p % 2 = 0 := by omega
    simp only [pass, hp0, if_false]
    refine ⟨?_, oddPass_first a, oddPass_last a⟩
    intro i hi hlt
    obtain ⟨q, rfl⟩ : ∃ q, i = 2 * q + 1 := ⟨i / 2, by omega⟩
    exact oddPass_pair a q (by omega)

/-- Instance of C7: phase 1 on the array `[4, 3, 2, 1]`. -/
theorem phaseBody_post_witness :
    ∃ b ev, phaseBody 4 (1 : Nat) [4, 3, 2, 1] = some (b, ev) ∧
      b.length = [4, 3, 2, (1 : Int)].length ∧
      ((1 : Nat) % 2 = 0 →
        (∀ i : Nat, i % 2 = 1 → (i : Int) < 4 → b.getD (i - 1) 0 ≤ b.getD i 0) ∧
        ([4, 3, 2, (1 : Int)].length % 2 = 1 →
          b.getD ([4, 3, 2, (1 : Int)].length - 1) 0
            = [4, 3, 2, (1 : Int)].getD ([4, 3, 2, (1 : Int)].length - 1) 0)) ∧
      ((1 : Nat) % 2 = 1 →
        (∀ i : Nat, i % 2 = 1 → (i : Int) < 4 - 1 → b.getD i 0 ≤ b.getD (i + 1) 0) ∧
        b.getD 0 0 = [4, 3, 2, (1 : Int)].getD 0 0 ∧
        ([4, 3, 2, (1 : Int)].length % 2 = 0 →
          b.getD ([4, 3, 2, (1 : Int)].length - 1) 0
            = [4, 3, 2, (1 : Int)].getD ([4, 3, 2, (1 : Int)].length - 1) 0)) :=
  phaseBody_post [4, 3, 2, 1] 4 1 (by decide) (by decide)

/-! ## Index safety and counter range (claim C9) -/

theorem evenEvents_ok : ∀ (rest : List Int) (i n : Int), 1 ≤ i → i % 2 = 1 →
    i - 1 + rest.length ≤ n → ∀ e ∈ evenEvents i rest, EventOK n e
  | [], _, _, _, _, _ => by simp [evenEvents]
  | [_], _, _, _, _, _ => by simp [evenEvents]
  | x :: y :: r, i, n, h1, hodd, hlen => by
    have ih := evenEvents_ok r (i + 2) n (by omega) (by omega)
      (by simp at hlen; omega)
    simp only [List.length_cons] at hlen
    push_cast at hlen
    intro e he
    simp only [evenEvents, List.mem_append, List.mem_cons] at he
    rcases he with he | he | he
    · split at he
      · simp only [List.mem_cons, List.mem_singleton, List.not_mem_nil, or_false] at he
        rcases he with rfl | rfl <;> simp only [EventOK] <;> omega
      · simp only [List.mem_singleton] at he
        subst he
        simp only [EventOK]
        omega
    · subst he
      simp only [EventOK]
      omega
    · exact ih e he

theorem oddEvents_ok : ∀ (rest : List Int) (i n : Int), 1 ≤ i → i % 2 = 1 →
    i + rest.length ≤ n → ∀ e ∈ oddEvents i rest, EventOK n e
  | [], _, _, _, _, _ => by simp [oddEvents]
  | [_], _, _, _, _, _ => by simp [oddEvents]
  | x :: y :: r, i, n, h1, hodd, hlen => by
    have ih := oddEvents_ok r (i + 2) n (by omega) (by omega)
      (by simp at hlen; omega)
    simp only [List.length_cons] at hlen
    push_cast at hlen
    intro e he
    simp only [oddEvents, List.mem_append, List.mem_cons] at he
    rcases he with he | he | he
    · split at he
      · simp only [List.mem_cons, List.mem_singleton, List.not_mem_nil, or_false] at he
        rcases he with rfl | rfl <;> simp only [EventOK] <;> omega
      · simp only [List.mem_singleton] at he
        subst he
        simp only [EventOK]
        omega
    · subst he
      simp only [EventOK]
      omega
    · exact ih e he

theorem passEvents_ok (p : Nat) (a : List Int) : ∀ e ∈ passEvents p a, EventOK a.length e := by
  intro e he
  simp only [passEvents, List.mem_cons] at he
  rcases he with rfl | he
  · simp only [EventOK]
    omega
  · split at he
    · exact evenEvents_ok a 1 a.length (by omega) (by omega) (by omega) e he
    · match a with
      | [] => simp [oddEvents] at he
      | x :: r =>
        exact oddEvents_ok r 1 _ (by omega) (by omega) (by simp; omega) e he

theorem passesEvents_ok : ∀ (k p : Nat) (a : List Int), p + k ≤ a.length →
    ∀ e ∈ passesEvents p k a, EventOK a.length e
  | 0, _, _, _ => by simp [passesEvents]
  | k + 1, p, a, h => by
    intro e he
    simp only [passesEvents, List.mem_append, List.mem_cons] at he
    rcases he with he | rfl | he
    · exact passEvents_ok p a e he
    · simp only [EventOK]
      omega
    · have ih := passesEvents_ok k (p + 1) (pass p a) (by rw [length_pass]; omega) e he
      rw [length_pass] at ih
      exact ih

theorem Odd_even_events_ok (a : List Int) :
    ∀ e ∈ Event.phase 0 :: passesEvents 0 a.length a, EventOK a.length e := by
  intro e he
  simp only [List.mem_cons] at he
  rcases he with rfl | he
  · simp only [EventOK]
    omega
  · exact passesEvents_ok a.length 0 a (by omega) e he

/-- C9 as stated fails: on the two-element array `[2, 1]` the counter `i`
takes the value 3 (after the last `i += 2` of phase 0), which exceeds `n = 2`. -/
theorem Odd_even_counter_exceeds :
    ∃ b ev, Odd_even [2, 1] 2 = some (b, ev) ∧ Event.idx 3 ∈ ev ∧
      ¬ CountersAtMost 2 ev :=
  ⟨[1, 2], _, rfl, by decide, fun h => absurd (h 3 (Or.inl (by decide))) (by decide)⟩

/-- C9 (amended): on an array with `n` slots, `n` a C `int`, `Odd_even(a, n)`
returns a result, so no array access is out of bounds and no counter
computation overflows; every compared or swapped index lies in `0..n-1`; every
value of `i` lies in `1..n+1` (in `1..n` when `n` is odd) and is at most
`INT_MAX`; every value of `phase` lies in `0..n`. -/
theorem Odd_even_index_safe (a : List Int) (n : Int)
    (hn : n = a.length) (hmax : n ≤ INT_MAX) :
    ∃ b ev, Odd_even a n = some (b, ev) ∧
      (∀ l r : Int, (Event.cmp l r ∈ ev ∨ Event.swap l r ∈ ev) →
        0 ≤ l ∧ l < n ∧ 0 ≤ r ∧ r < n) ∧
      (∀ v : Int, Event.idx v ∈ ev →
        1 ≤ v ∧ v ≤ n + 1 ∧ (n % 2 = 1 → v ≤ n) ∧ v ≤ INT_MAX) ∧
      (∀ v : Int, Event.phase v ∈ ev → 0 ≤ v ∧ v ≤ n ∧ v ≤ INT_MAX) := by
  refine ⟨_, _, Odd_even_eq a n hn hmax, ?_, ?_, ?_⟩
  · intro l r h
    rcases h with h | h
    · have := Odd_even_events_ok a _ h
      simp only [EventOK] at this
      omega
    · have := Odd_even_events_ok a _ h
      simp only [EventOK] at this
      omega
  · intro v h
    have := Odd_even_events_ok a _ h
    simp only [EventOK] at this
    unfold INT_MAX at hmax ⊢
    omega
  · intro v h
    have := Odd_even_events_ok a _ h
    simp only [EventOK] at this
    omega

/-- Instance of the amended C9 at the array `[2, 1]`. -/
theorem Odd_even_index_safe_witness :
    ∃ b ev, Odd_even [2, 1] 2 = some (b, ev) ∧
      (∀ l r : Int, (Event.cmp l r ∈ ev ∨ Event.swap l r ∈ ev) →
        0 ≤ l ∧ l < 2 ∧ 0 ≤ r ∧ r < 2) ∧
      (∀ v : Int, Event.idx v ∈ ev →
        1 ≤ v ∧ v ≤ 2 + 1 ∧ ((2 : Int) % 2 = 1 → v ≤ 2) ∧ v ≤ INT_MAX) ∧
      (∀ v : Int, Event.phase v ∈ ev → 0 ≤ v ∧ v ≤ 2 ∧ v ≤ INT_MAX) :=
  Odd_even_index_safe [2, 1] 2 (by decide) (by decide)

/-! ## Tightness of the phase count (claim C10) -/

theorem nonDecreasing_cons_cons (x y : Int) (r : List Int) :
    NonDecreasing (x :: y :: r) ↔ x ≤ y ∧ NonDecreasing (y :: r) := by
  constructor
  · intro h
    exact ⟨nonDecreasing_head x y r h, nonDecreasing_tail x (y :: r) h⟩
  · rintro ⟨hxy, h⟩ i hi h1
    obtain ⟨k, rfl⟩ : ∃ k, i = k + 1 := ⟨i - 1, by omega⟩
    match k with
    | 0 => simpa using hxy
    | k + 1 =>
      have := h (k + 1) (by simpa using hi) (by omega)
      simpa using this

theorem nonDecreasing_iff_chain : ∀ (b : List Int),
    NonDecreasing b ↔ List.Chain' (fun x y : Int => x ≤ y) b
  | [] => by simp [NonDecreasing]
  | [x] => by
    simp only [List.chain'_singleton, iff_true]
    intro i hi h1
    simp at hi
    omega
  | x :: y :: r => by
    rw [nonDecreasing_cons_cons, List.chain'_cons, nonDecreasing_iff_chain (y :: r)]

theorem thresh_mono (t : Int) {x y : Int} (h : x ≤ y) : thresh t x ≤ thresh t y := by
  unfold thresh
  split_ifs <;> omega

theorem nonDecreasing_map_thresh (t : Int) (b : List Int) (h : NonDecreasing b) :
    NonDecreasing (b.map (thresh t)) := by
  rw [nonDecreasing_iff_chain] at h ⊢
  rw [List.chain'_map]
  exact h.imp fun _ _ hxy => thresh_mono t hxy

theorem evenPass_map_thresh (t : Int) : ∀ (l : List Int),
    (evenPass l).map (thresh t) = evenPass (l.map (thresh t))
  | [] => by simp [evenPass]
  | [_] => by simp [evenPass]
  | x :: y :: r => by
    have ih := evenPass_map_thresh t r
    simp only [evenPass, List.map_cons]
    by_cases hxy : x > y
    · have hm : thresh t y ≤ thresh t x := thresh_mono t (by omega)
      by_cases hf : thresh t x > thresh t y
      · simp [hxy, hf, ih]
      · have : thresh t x = thresh t y := by omega
        simp [hxy, ih, this]
    · have hm : thresh t x ≤ thresh t y := thresh_mono t (by omega)
      have hf : ¬ thresh t x > thresh t y := by omega
      simp [hxy, hf, ih]

theorem pass_map_thresh (t : Int) (p : Nat) (l : List Int) :
    (pass p l).map (thresh t) = pass p (l.map (thresh t)) := by
  unfold pass
  split
  · exact evenPass_map_thresh t l
  · cases l with
    | nil => simp [oddPass]
    | cons x r => simp [oddPass, evenPass_map_thresh t r]

theorem passes_map_thresh (t : Int) : ∀ (k p : Nat) (l : List Int),
    (passes p k l).map (thresh t) = passes p k (l.map (thresh t))
  | 0, _, _ => by simp [passes]
  | k + 1, p, l => by
    simp only [passes]
    rw [passes_map_thresh t k (p + 1) (pass p l), pass_map_thresh]

theorem evenPass_replicate_zero : ∀ w : Nat,
    evenPass (List.replicate w 0) = List.replicate w 0
  | 0 => by simp [evenPass]
  | 1 => by simp [evenPass]
  | w + 2 => by
    have ih := evenPass_replicate_zero w
    simp [List.replicate_succ, evenPass, ih]

theorem evenPass_replicate_append : ∀ (q : Nat) (l : List Int),
    evenPass (List.replicate (2 * q) 0 ++ l) = List.replicate (2 * q) 0 ++ evenPass l
  | 0, l => by simp
  | q + 1, l => by
    have ih := evenPass_replicate_append q l
    rw [show 2 * (q + 1) = 2 * q + 1 + 1 from by ring]
    simp [List.replicate_succ, evenPass, ih]

theorem replicate_zero_append_cons : ∀ (n : Nat) (l : List Int),
    List.replicate n 0 ++ 0 :: l = 0 :: (List.replicate n 0 ++ l)
  | 0, l => by simp
  | n + 1, l => by
    have ih := replicate_zero_append_cons n l
    simp [List.replicate_succ, ih]

theorem pass_twoOnes (u w : Nat) : pass (u + 2) (twoOnes u (w + 1)) = twoOnes (u + 1) w := by
  unfold pass twoOnes
  by_cases hu : u % 2 = 0
  · obtain ⟨q, rfl⟩ : ∃ q, u = 2 * q := ⟨u / 2, by omega⟩
    have hp : (2 * q + 2) % 2 = 0 := by omega
    simp only [hp, if_true]
    rw [evenPass_replicate_append]
    simp [List.replicate_succ, evenPass, evenPass_replicate_zero,
      replicate_zero_append_cons]
  · obtain ⟨q, rfl⟩ : ∃ q, u = 2 * q + 1 := ⟨u / 2, by omega⟩
    have hp : ¬ (2 * q + 1 + 2) % 2 = 0 := by omega
    simp only [hp, if_false]
    have e : List.replicate (2 * q + 1) (0 : Int) ++ 1 :: 0 :: 1 :: List.replicate (w + 1) 0
        = 0 :: (List.replicate (2 * q) 0 ++ 1 :: 0 :: 1 :: 0 :: List.replicate w 0) := by
      simp [List.replicate_succ]
    rw [e]
    simp only [oddPass]
    rw [evenPass_replicate_append]
    simp [List.replicate_succ, evenPass, evenPass_replicate_zero,
      replicate_zero_append_cons]

theorem passes_twoOnes : ∀ (j u w : Nat),
    passes (u + 2) j (twoOnes u (w + j)) = twoOnes (u + j) w
  | 0, u, w => by simp [passes]
  | j + 1, u, w => by
    simp only [passes]
    rw [show w + (j + 1) = (w + j) + 1 from by omega, pass_twoOnes]
    have ih := passes_twoOnes j (u + 1) w
    rw [show u + 1 + 2 = u + 2 + 1 from by omega, show u + 1 + j = u + (j + 1) from by omega] at ih
    exact ih

theorem passes_zero_one (m : Nat) :
    passes 0 (m + 2) (1 :: 1 :: List.replicate (m + 1) 0) = twoOnes m 0 := by
  have e1 : evenPass (1 :: 1 :: List.replicate (m + 1) 0)
      = 1 :: 1 :: List.replicate (m + 1) 0 := by
    simp only [evenPass, evenPass_replicate_zero]
    simp
  have e2 : oddPass (1 :: 1 :: List.replicate (m + 1) 0) = twoOnes 0 m := by
    simp only [oddPass, List.replicate_succ, evenPass, evenPass_replicate_zero]
    simp [twoOnes]
  have h2 : passes 0 2 (1 :: 1 :: List.replicate (m + 1) 0) = twoOnes 0 m := by
    simp only [passes, pass]
    simp [e1, e2]
  have h := passes_twoOnes m 0 0
  simp only [Nat.zero_add] at h
  rw [show m + 2 = (m + 1) + 1 from rfl]
  simp only [passes] at h2 ⊢
  rw [h2]
  exact h

theorem strictlyDescending_tail (x : Int) (l : List Int) (h : StrictlyDescending (x :: l)) :
    StrictlyDescending l := by
  intro i hi h1
  obtain ⟨k, rfl⟩ : ∃ k, i = k + 1 := ⟨i - 1, by omega⟩
  have := h (k + 1 + 1) (by simpa using hi) (by omega)
  simpa using this

theorem strictlyDescending_head (x y : Int) (r : List Int)
    (h : StrictlyDescending (x :: y :: r)) : y < x := by
  have := h 1 (by simp) (by omega)
  simpa using this

theorem strictlyDescending_lt : ∀ (r : List Int) (y : Int), StrictlyDescending (y :: r) →
    ∀ z ∈ r, z < y
  | [], _, _ => by simp
  | x :: r, y, h => by
    intro z hz
    have hxy := strictlyDescending_head y x r h
    have ih := strictlyDescending_lt r x (strictlyDescending_tail y (x :: r) h)
    simp only [List.mem_cons] at hz
    rcases hz with rfl | hz
    · exact hxy
    · have := ih z hz
      omega

theorem map_thresh_descending (x y : Int) (r : List Int)
    (h : StrictlyDescending (x :: y :: r)) :
    (x :: y :: r).map (thresh y) = 1 :: 1 :: List.replicate r.length 0 := by
  have hxy := strictlyDescending_head x y r h
  have hr := strictlyDescending_lt r y (strictlyDescending_tail x (y :: r) h)
  have e : r.map (thresh y) = List.replicate r.length 0 := by
    rw [List.eq_replicate_iff]
    refine ⟨by simp, ?_⟩
    intro b hb
    obtain ⟨z, hz, rfl⟩ := List.mem_map.1 hb
    have := hr z hz
    simp only [thresh]
    split_ifs
    · omega
    · rfl
  have e1 : thresh y x = 1 := by simp only [thresh]; split_ifs <;> omega
  have e2 : thresh y y = 1 := by simp [thresh]
  simp [e, e1, e2]

theorem nonDecreasing_drop_zeros : ∀ (u : Nat) (l : List Int),
    NonDecreasing (List.replicate u 0 ++ l) → NonDecreasing l
  | 0, l, h => by simpa using h
  | u + 1, l, h => by
    apply nonDecreasing_drop_zeros u l
    have h2 : NonDecreasing (0 :: (List.replicate u 0 ++ l)) := by
      simpa [List.replicate_succ] using h
    exact nonDecreasing_tail 0 _ h2

theorem not_nonDecreasing_passes_descending (a : List Int) (h3 : 3 ≤ a.length)
    (hd : StrictlyDescending a) : ¬ NonDecreasing (passes 0 (a.length - 1) a) := by
  match a, h3, hd with
  | x :: y :: z :: r, _, hd =>
    intro hs
    have h1 := nonDecreasing_map_thresh y _ hs
    rw [passes_map_thresh, map_thresh_descending x y (z :: r) hd] at h1
    have e : (x :: y :: z :: r).length - 1 = r.length + 2 := by simp
    rw [e] at h1
    have h2 := passes_zero_one r.length
    simp only [List.length_cons] at h1
    rw [h2] at h1
    have h4 := nonDecreasing_drop_zeros r.length [1, 0, 1] (by simpa [twoOnes] using h1)
    exact absurd h4 (by decide)

/-- C10: for every strictly descending array with `n ≥ 3` slots, running only
the first `n - 1` phases of `Odd_even` (phases `0..n-2`, loop condition
`phase < n - 1`) returns an array that is not non-decreasing; the bound
`phase < n` is therefore tight. -/
theorem Odd_even_phase_count_tight (a : List Int) (n : Int)
    (hn : n = a.length) (h3 : 3 ≤ n) (hmax : n ≤ INT_MAX) (hd : StrictlyDescending a) :
    ∃ b ev, Odd_even_upto (n - 1) a n = some (b, ev) ∧ ¬ NonDecreasing b := by
  have hk : n - 1 = ((a.length - 1 : Nat) : Int) := by omega
  rw [hk]
  refine ⟨_, _, Odd_even_upto_eq a (a.length - 1) n hn hmax (by omega), ?_⟩
  exact not_nonDecreasing_passes_descending a (by omega) hd

/-- Instance of C10 at the array `[9, 8, 7, 6, 5]`: after the first four phases
the array is `[6, 5, 8, 7, 9]`. -/
theorem Odd_even_phase_count_tight_witness :
    (∃ b ev, Odd_even_upto (5 - 1) [9, 8, 7, 6, 5] 5 = some (b, ev) ∧ ¬ NonDecreasing b) ∧
    (Odd_even_upto 4 [9, 8, 7, 6, 5] 5).map Prod.fst = some [6, 5, 8, 7, 9] :=
  ⟨Odd_even_phase_count_tight [9, 8, 7, 6, 5] 5 (by decide) (by decide) (by decide)
    (by decide), by decide⟩

/-! ## Argument validation (claim C6) -/

/-- C6: `Get_args` fails exactly when the argument count is not 4, or the
parsed `n` is `≤ 0`, or the first character of the mode argument is neither
`g` nor `i`; in that case `main` consists of the usage message followed by
`exit(0)`: nothing is allocated, generated, read or sorted. Otherwise
`Get_args` succeeds and `main` reaches the call of `Odd_even`. -/
theorem main_rejects_bad_args (strtol : String → Int) (Generate_list Read_list : Int → List Int)
    (argc : Int) (argv : List String) :
    (BadArgs strtol argc argv ↔
      Get_args strtol argc argv
        = Except.error [Action.usage (argAt argv 0), Action.exit 0]) ∧
    (BadArgs strtol argc argv →
      main strtol Generate_list Read_list argc argv
          = [Action.usage (argAt argv 0), Action.exit 0] ∧
        (∀ a n r, Action.sort a n r ∉ main strtol Generate_list Read_list argc argv) ∧
        (∀ n, Action.malloc n ∉ main strtol Generate_list Read_list argc argv) ∧
        (∀ n, Action.generate n ∉ main strtol Generate_list Read_list argc argv) ∧
        (∀ n, Action.read n ∉ main strtol Generate_list Read_list argc argv)) ∧
    (¬ BadArgs strtol argc argv →
      (∃ args, Get_args strtol argc argv = Except.ok args ∧
        args.n = strtol (argAt argv 2) ∧ 0 < args.n ∧
        args.g_i = firstChar (argAt argv 3)) ∧
      ∃ a n r, Action.sort a n r ∈ main strtol Generate_list Read_list argc argv) := by
  have herr : BadArgs strtol argc argv →
      Get_args strtol argc argv
        = Except.error [Action.usage (argAt argv 0), Action.exit 0] := by
    intro hbad
    unfold Get_args
    by_cases h4 : argc ≠ 4
    · simp [h4]
    · have h4p : argc = 4 := by omega
      rcases hbad with h | h | h
      · exact absurd h4p h
      · simp [h4p, h]
      · simp [h4p, h]
  have hok : ¬ BadArgs strtol argc argv →
      Get_args strtol argc argv = Except.ok
        { thread_count := strtol (argAt argv 1), n := strtol (argAt argv 2),
          g_i := firstChar (argAt argv 3) } := by
    intro hgood
    unfold BadArgs at hgood
    push_neg at hgood
    obtain ⟨h4, hn, hc⟩ := hgood
    unfold Get_args
    have hcond : ¬ (strtol (argAt argv 2) ≤ 0 ∨
        (firstChar (argAt argv 3) ≠ 'g' ∧ firstChar (argAt argv 3) ≠ 'i')) := by
      rintro (h | ⟨h1, h2⟩)
      · omega
      · exact h2 (hc h1)
    simp only [h4, ne_eq, not_true_eq_false, if_false]
    rw [if_neg hcond]
  refine ⟨⟨herr, ?_⟩, ?_, ?_⟩
  · intro h
    by_contra hgood
    rw [hok hgood] at h
    cases h
  · intro hbad
    have hm : main strtol Generate_list Read_list argc argv
        = [Action.usage (argAt argv 0), Action.exit 0] := by
      simp [main, herr hbad]
    rw [hm]
    simp
  · intro hgood
    have hpos : 0 < strtol (argAt argv 2) := by
      unfold BadArgs at hgood
      push_neg at hgood
      exact hgood.2.1
    refine ⟨⟨_, hok hgood, rfl, hpos, rfl⟩, ?_⟩
    simp only [main, hok hgood]
    exact ⟨_, _, _, List.mem_cons_of_mem _ (List.mem_cons_of_mem _ (List.mem_cons_self _ _))⟩

/-- Instances of C6: `prog 4 0 g` (non-positive `n`) and `prog 4 5 x` (unknown
mode) stop after the usage message; `prog 2 3 g` reaches the sort. -/
theorem main_rejects_bad_args_witness :
    main decimal (fun _ => [3, 1, 2]) (fun _ => []) 4
        ["prog", "4", "0", "g"] = [Action.usage "prog", Action.exit 0] ∧
    main decimal (fun _ => [3, 1, 2]) (fun _ => []) 4
        ["prog", "4", "5", "x"] = [Action.usage "prog", Action.exit 0] ∧
    main decimal (fun _ => [3, 1, 2]) (fun _ => []) 3
        ["prog", "4", "5"] = [Action.usage "prog", Action.exit 0] ∧
    ∃ a n r, Action.sort a n r ∈
      main decimal (fun _ => [3, 1, 2]) (fun _ => []) 4
        ["prog", "2", "3", "g"] :=
  ⟨((main_rejects_bad_args decimal (fun _ => [3, 1, 2]) (fun _ => []) 4
      ["prog", "4", "0", "g"]).2.1 (Or.inr (Or.inl (by decide)))).1,
   ((main_rejects_bad_args decimal (fun _ => [3, 1, 2]) (fun _ => []) 4
      ["prog", "4", "5", "x"]).2.1 (Or.inr (Or.inr (by decide)))).1,
   ((main_rejects_bad_args decimal (fun _ => [3, 1, 2]) (fun _ => []) 3
      ["prog", "4", "5"]).2.1 (Or.inl (by decide))).1,
   ((main_rejects_bad_args decimal (fun _ => [3, 1, 2]) (fun _ => []) 4
      ["prog", "2", "3", "g"]).2.2 (by decide)).2⟩

/-! ## Order independence within a phase (claim C8) -/

theorem tmod_two (p : Nat) : Int.tmod (p : Int) 2 = 0 ↔ p % 2 = 0 := by
  rw [Int.tmod_eq_emod (by omega) (by omega)]
  omega

theorem cexAt_append : ∀ (pre : List Int) (x y : Int) (r : List Int),
    cexAt pre.length (pre ++ x :: y :: r)
      = pre ++ (if x > y then y :: x :: r else x :: y :: r)
  | [], x, y, r => by simp [cexAt]
  | z :: pre, x, y, r => by
    have ih := cexAt_append pre x y r
    simp [cexAt, ih]

theorem split_pair : ∀ (k : Nat) (a : List Int), k + 1 < a.length →
    ∃ pre x y r, a = pre ++ x :: y :: r ∧ pre.length = k
  | 0, [], h => by simp at h
  | 0, [_], h => by simp at h
  | 0, x :: y :: r, _ => ⟨[], x, y, r, rfl, rfl⟩
  | k + 1, [], h => by simp at h
  | k + 1, z :: a, h => by
    obtain ⟨pre, x, y, r, ha, hk⟩ := split_pair k a (by simpa using h)
    exact ⟨z :: pre, x, y, r, by simp [ha], by simp [hk]⟩

theorem length_cexAt : ∀ (k : Nat) (a : List Int), (cexAt k a).length = a.length
  | 0, [] => by simp [cexAt]
  | 0, [_] => by simp [cexAt]
  | 0, x :: y :: r => by
    simp only [cexAt]
    split <;> simp
  | k + 1, [] => by simp [cexAt]
  | k + 1, x :: r => by simp [cexAt, length_cexAt k r]

theorem cexAt_comm : ∀ (k k2 : Nat) (a : List Int), k + 2 ≤ k2 →
    cexAt k (cexAt k2 a) = cexAt k2 (cexAt k a)
  | 0, k2, a, h => by
    obtain ⟨m, rfl⟩ : ∃ m, k2 = m + 2 := ⟨k2 - 2, by omega⟩
    match a with
    | [] => simp [cexAt]
    | [x] => simp [cexAt]
    | x :: y :: r =>
      simp only [cexAt]
      split <;> simp [cexAt]
  | k + 1, k2, a, h => by
    obtain ⟨m, rfl⟩ : ∃ m, k2 = m + 1 := ⟨k2 - 1, by omega⟩
    match a with
    | [] => simp [cexAt]
    | x :: r =>
      simp only [cexAt]
      rw [cexAt_comm k m r (by omega)]

theorem bodyOf_good (p : Nat) (a : List Int) (i : Int)
    (hmax : (a.length : Int) ≤ INT_MAX) (hg : GoodIndex p a.length i) :
    bodyOf p i a = some (cexAt (pairPos p i) a) := by
  obtain ⟨hodd, h1, hlt⟩ := hg
  unfold bodyOf pairPos
  by_cases hp : p % 2 = 0
  · simp only [hp, if_true] at hlt
    simp only [(tmod_two p).2 hp, hp, if_true]
    obtain ⟨pre, x, y, r, ha, hk⟩ := split_pair (i - 1).toNat a (by omega)
    have hb := evenBody_append pre x y r i (by omega) (by omega)
    rw [← hk, ha, hb, cexAt_append]
    rfl
  · simp only [hp, if_false] at hlt
    have hp2 : ¬ Int.tmod (p : Int) 2 = 0 := fun h => hp ((tmod_two p).1 h)
    simp only [hp2, hp, if_false]
    obtain ⟨pre, x, y, r, ha, hk⟩ := split_pair i.toNat a (by omega)
    have hb := oddBody_append pre x y r i (by omega) (by omega)
    rw [← hk, ha, hb, cexAt_append]
    rfl

theorem runInOrder_good (p : Nat) : ∀ (order : List Int) (a : List Int),
    (a.length : Int) ≤ INT_MAX → (∀ i ∈ order, GoodIndex p a.length i) →
    runInOrder p order a = some (order.foldl (fun b i => cexAt (pairPos p i) b) a)
  | [], a, _, _ => by simp [runInOrder]
  | i :: rest, a, hmax, hg => by
    have hb := bodyOf_good p a i hmax (hg i (List.mem_cons_self _ _))
    have hl : (cexAt (pairPos p i) a).length = a.length := length_cexAt _ _
    have ih := runInOrder_good p rest (cexAt (pairPos p i) a) (by rw [hl]; exact hmax)
      (by rw [hl]; exact fun j hj => hg j (List.mem_cons_of_mem _ hj))
    simp [runInOrder, hb, ih]

theorem foldl_cexAt_perm (p : Nat) (n : Int) (l1 l2 : List Int) (a : List Int)
    (hperm : l1.Perm l2) (hg : ∀ i ∈ l1, GoodIndex p n i) :
    l1.foldl (fun b i => cexAt (pairPos p i) b) a
      = l2.foldl (fun b i => cexAt (pairPos p i) b) a := by
  apply List.Perm.foldl_eq' hperm
  intro x hx y hy z
  obtain ⟨hxo, hx1, _⟩ := hg x hx
  obtain ⟨hyo, hy1, _⟩ := hg y hy
  by_cases hxy : x = y
  · subst hxy
    rfl
  · by_cases hp : p % 2 = 0
    · simp only [pairPos, hp, if_true]
      by_cases hlt : x < y
      · exact (cexAt_comm _ _ z (by omega)).symm
      · exact cexAt_comm _ _ z (by omega)
    · simp only [pairPos, hp, if_false]
      by_cases hlt : x < y
      · exact (cexAt_comm _ _ z (by omega)).symm
      · exact cexAt_comm _ _ z (by omega)

theorem evenIndices_good : ∀ (fuel : Nat) (n i : Int), i % 2 = 1 → 1 ≤ i →
    ∀ x ∈ evenIndices fuel n i, x % 2 = 1 ∧ 1 ≤ x ∧ x < n
  | 0, _, _, _, _ => by simp [evenIndices]
  | fuel + 1, n, i, hodd, h1 => by
    intro x hx
    simp only [evenIndices] at hx
    split at hx
    · simp only [List.mem_cons] at hx
      rcases hx with rfl | hx
      · exact ⟨hodd, h1, by assumption⟩
      · exact evenIndices_good fuel n (i + 2) (by omega) (by omega) x hx
    · simp at hx

theorem oddIndices_good : ∀ (fuel : Nat) (n i : Int), i % 2 = 1 → 1 ≤ i →
    ∀ x ∈ oddIndices fuel n i, x % 2 = 1 ∧ 1 ≤ x ∧ x + 1 < n
  | 0, _, _, _, _ => by simp [oddIndices]
  | fuel + 1, n, i, hodd, h1 => by
    intro x hx
    simp only [oddIndices] at hx
    split at hx
    · simp only [List.mem_cons] at hx
      rcases hx with rfl | hx
      · exact ⟨hodd, h1, by omega⟩
      · exact oddIndices_good fuel n (i + 2) (by omega) (by omega) x hx
    · simp at hx

theorem phaseIndices_good (p : Nat) (n : Int) :
    ∀ x ∈ phaseIndices n p, GoodIndex p n x := by
  intro x hx
  unfold phaseIndices at hx
  unfold GoodIndex
  by_cases hp : p % 2 = 0
  · simp only [(tmod_two p).2 hp, if_true] at hx
    have := evenIndices_good _ n 1 (by omega) (by omega) x hx
    simp only [hp, if_true]
    exact this
  · have hp2 : ¬ Int.tmod (p : Int) 2 = 0 := fun h => hp ((tmod_two p).1 h)
    simp only [hp2, if_false] at hx
    have := oddIndices_good _ n 1 (by omega) (by omega) x hx
    simp only [hp, if_false]
    exact this

theorem foldl_evenIndices (fuel : Nat) : ∀ (pre rest : List Int) (n i : Int),
    n = (pre ++ rest).length → i = pre.length + 1 → rest.length < 2 * fuel →
    (evenIndices fuel n i).foldl (fun b j => cexAt (j - 1).toNat b) (pre ++ rest)
      = pre ++ evenPass rest := by
  induction fuel with
  | zero => intro pre rest n i _ _ hf; omega
  | succ fuel ih =>
    intro pre rest n i hn hi hf
    match rest with
    | [] =>
      have : ¬ i < n := by simp at hn; omega
      simp [evenIndices, this, evenPass]
    | [x] =>
      have : ¬ i < n := by simp at hn; omega
      simp [evenIndices, this, evenPass]
    | x :: y :: r =>
      have hlt : i < n := by simp at hn; omega
      have hk : (i - 1).toNat = pre.length := by omega
      have hrec := ih (pre ++ (if x > y then [y, x] else [x, y])) r n (i + 2)
        (by simp at hn ⊢; split <;> simp <;> omega)
        (by split <;> simp <;> omega) (by simp at hf; omega)
      simp only [evenIndices, hlt, if_true, List.foldl_cons, hk, cexAt_append]
      by_cases hxy : x > y
      · simp only [hxy, if_true, List.append_assoc, List.cons_append,
          List.nil_append] at hrec ⊢
        simp only [evenPass, hxy, if_true]
        exact hrec
      · simp only [hxy, if_false, List.append_assoc, List.cons_append,
          List.nil_append] at hrec ⊢
        simp only [evenPass, hxy, if_false]
        exact hrec

theorem foldl_oddIndices (fuel : Nat) : ∀ (pre rest : List Int) (n i : Int),
    n = (pre ++ rest).length → i = pre.length → rest.length < 2 * fuel →
    (oddIndices fuel n i).foldl (fun b j => cexAt j.toNat b) (pre ++ rest)
      = pre ++ evenPass rest := by
  induction fuel with
  | zero => intro pre rest n i _ _ hf; omega
  | succ fuel ih =>
    intro pre rest n i hn hi hf
    match rest with
    | [] =>
      have : ¬ i < n - 1 := by simp at hn; omega
      simp [oddIndices, this, evenPass]
    | [x] =>
      have : ¬ i < n - 1 := by simp at hn; omega
      simp [oddIndices, this, evenPass]
    | x :: y :: r =>
      have hlt : i < n - 1 := by simp at hn; omega
      have hk : i.toNat = pre.length := by omega
      have hrec := ih (pre ++ (if x > y then [y, x] else [x, y])) r n (i + 2)
        (by simp at hn ⊢; split <;> simp <;> omega)
        (by split <;> simp <;> omega) (by simp at hf; omega)
      simp only [oddIndices, hlt, if_true, List.foldl_cons, hk, cexAt_append]
      by_cases hxy : x > y
      · simp only [hxy, if_true, List.append_assoc, List.cons_append,
          List.nil_append] at hrec ⊢
        simp only [evenPass, hxy, if_true]
        exact hrec
      · simp only [hxy, if_false, List.append_assoc, List.cons_append,
          List.nil_append] at hrec ⊢
        simp only [evenPass, hxy, if_false]
        exact hrec

theorem foldl_phaseIndices (p : Nat) (a : List Int) (n : Int) (hn : n = a.length) :
    (phaseIndices n p).foldl (fun b i => cexAt (pairPos p i) b) a = pass p a := by
  unfold phaseIndices pass
  by_cases hp : p % 2 = 0
  · simp only [(tmod_two p).2 hp, hp, if_true, pairPos]
    have h := foldl_evenIndices (n.toNat + 1) [] a n 1 (by simpa using hn) (by simp)
      (by omega)
    simpa using h
  · have hp2 : ¬ Int.tmod (p : Int) 2 = 0 := fun h => hp ((tmod_two p).1 h)
    simp only [hp2, hp, if_false, pairPos]
    match a with
    | [] =>
      have hn0 : n = 0 := by simpa using hn
      subst hn0
      simp [oddIndices, oddPass]
    | x :: r =>
      have h := foldl_oddIndices (n.toNat + 1) [x] r n 1 (by simpa using hn) (by simp)
        (by simp at hn ⊢; omega)
      simpa [oddPass] using h

/-- C8: in one phase of `Odd_even` on an array with `n` slots, any two distinct
loop iterations handle disjoint index pairs (their `i` values differ by at
least 2), and executing the loop iterations in any order (any permutation of
the loop's `i` values) returns the same array as the loop itself, which runs
them in increasing `i`. -/
theorem phase_order_independent (a : List Int) (n : Int) (p : Nat) (order : List Int)
    (hn : n = a.length) (hmax : n ≤ INT_MAX) (hperm : order.Perm (phaseIndices n p)) :
    (∀ i ∈ phaseIndices n p, ∀ j ∈ phaseIndices n p, i ≠ j → i + 2 ≤ j ∨ j + 2 ≤ i) ∧
    runInOrder p order a = runInOrder p (phaseIndices n p) a ∧
    runInOrder p order a = (phaseBody n p a).map Prod.fst := by
  have hgood := phaseIndices_good p n
  have hgo : ∀ i ∈ order, GoodIndex p (a.length : Int) i := by
    intro i hi
    rw [← hn]
    exact hgood i (hperm.mem_iff.1 hi)
  have hgi : ∀ i ∈ phaseIndices n p, GoodIndex p (a.length : Int) i := by
    rw [← hn]
    exact hgood
  have hmax2 : (a.length : Int) ≤ INT_MAX := by rw [← hn]; exact hmax
  have h1 := runInOrder_good p order a hmax2 hgo
  have h2 := runInOrder_good p (phaseIndices n p) a hmax2 hgi
  have h3 := foldl_cexAt_perm p (a.length : Int) order (phaseIndices n p) a hperm hgo
  refine ⟨?_, ?_, ?_⟩
  · intro i hi j hj hij
    obtain ⟨hio, _, _⟩ := hgood i hi
    obtain ⟨hjo, _, _⟩ := hgood j hj
    omega
  · rw [h1, h2, h3]
  · rw [h1, h3, foldl_phaseIndices p a n hn, phaseBody_eq a n p hn hmax]
    rfl

/-- Instance of C8: phase 0 on `[4, 3, 2, 1, 0]` with the iterations in the
order `i = 3, 1`. -/
theorem phase_order_independent_witness :
    (∀ i ∈ phaseIndices 5 (0 : Nat), ∀ j ∈ phaseIndices 5 (0 : Nat),
      i ≠ j → i + 2 ≤ j ∨ j + 2 ≤ i) ∧
    runInOrder (0 : Nat) [3, 1] [4, 3, 2, 1, 0]
      = runInOrder (0 : Nat) (phaseIndices 5 (0 : Nat)) [4, 3, 2, 1, 0] ∧
    runInOrder (0 : Nat) [3, 1] [4, 3, 2, 1, 0]
      = (phaseBody 5 (0 : Nat) [4, 3, 2, 1, 0]).map Prod.fst :=
  phase_order_independent [4, 3, 2, 1, 0] 5 0 [3, 1] (by decide) (by decide) (by decide)

/-! ## Thread-count invariance (claim C3) -/

theorem load_nat (a : List Int) (k : Nat) (i : Int) (hi : i = k) (hk : k < a.length) :
    load a i = some (a.getD k 0) := by
  subst hi
  simp [load, List.getD_eq_getElem?_getD, List.getElem?_eq_getElem hk]

theorem store_nat (a : List Int) (k : Nat) (i : Int) (v : Int) (hi : i = k)
    (hk : k < a.length) : store a i v = some (a.set k v) := by
  subst hi
  simp [store, hk]

theorem getD_set_eq (a : List Int) (k : Nat) (v : Int) (hk : k < a.length) :
    (a.set k v).getD k 0 = v := by
  simp [List.getD_eq_getElem?_getD, List.getElem?_set, hk]

theorem getD_set_ne (a : List Int) (k c : Nat) (v : Int) (hc : c ≠ k) :
    (a.set k v).getD c 0 = a.getD c 0 := by
  simp [List.getD_eq_getElem?_getD, List.getElem?_set, Ne.symm hc]

theorem curInv_pc_le (a0 a : List Int) (k : Nat) (lf : Bool) (th : Thread)
    (h : CurInv a0 a k lf th) : th.pc ≤ 5 := by
  unfold CurInv at h
  split at h <;> first | omega | exact absurd h id

/-- Effect of one memory access of the current iteration: it succeeds, touches
only the two cells of the iteration, and either advances inside the body or
finishes the iteration with the two cells compare-exchanged. -/
theorem microOp_spec (a0 a : List Int) (k : Nat) (lf : Bool) (th : Thread)
    (l r f s : Int) (hl : l = k) (hr : r = k + 1)
    (hf : f = if lf then (k : Int) else k + 1) (hs : s = if lf then (k : Int) + 1 else k)
    (hk : k + 1 < a.length) (hcur : CurInv a0 a k lf th) :
    ∃ a1 th1, microOp l r f s th a = some (a1, th1) ∧
      a1.length = a.length ∧
      (∀ c, c ≠ k → c ≠ k + 1 → a1.getD c 0 = a.getD c 0) ∧
      ((th1.todo = th.todo ∧ th1.pc = th.pc + 1 ∧ CurInv a0 a1 k lf th1) ∨
       (th1 = th.next ∧
        a1.getD k 0 = (if a0.getD k 0 > a0.getD (k + 1) 0 then a0.getD (k + 1) 0
          else a0.getD k 0) ∧
        a1.getD (k + 1) 0 = (if a0.getD k 0 > a0.getD (k + 1) 0 then a0.getD k 0
          else a0.getD (k + 1) 0))) := by
  obtain ⟨todo, pc, r1, tmp, r3⟩ := th
  have hLl : load a l = some (a.getD k 0) := load_nat a k l hl (by omega)
  have hLr : load a r = some (a.getD (k + 1) 0) := load_nat a (k + 1) r (by omega) hk
  match pc with
  | 0 =>
    simp only [CurInv] at hcur
    refine ⟨a, { todo := todo, pc := 1, r1 := a.getD k 0, tmp := tmp, r3 := r3 },
      by simp [microOp, hLl], rfl, fun _ _ _ => rfl, Or.inl ⟨rfl, rfl, ?_⟩⟩
    simp only [CurInv]
    exact ⟨hcur.1, hcur.2, hcur.1⟩
  | 1 =>
    simp only [CurInv] at hcur
    obtain ⟨h1, h2, h3⟩ := hcur
    by_cases hgt : a0.getD k 0 > a0.getD (k + 1) 0
    · have hc : r1 > a.getD (k + 1) 0 := by rw [h3, h2]; exact hgt
      refine ⟨a, { todo := todo, pc := 2, r1 := r1, tmp := tmp, r3 := r3 },
        by simp only [microOp, hLr, Option.map_some', hc, if_true], rfl,
        fun _ _ _ => rfl, Or.inl ⟨rfl, rfl, ?_⟩⟩
      simp only [CurInv]
      exact ⟨h1, h2, hgt⟩
    · have hc : ¬ r1 > a.getD (k + 1) 0 := by rw [h3, h2]; exact hgt
      refine ⟨a, Thread.next { todo := todo, pc := 1, r1 := r1, tmp := tmp, r3 := r3 },
        by simp only [microOp, hLr, Option.map_some', hc, if_false], rfl,
        fun _ _ _ => rfl, Or.inr ⟨rfl, ?_, ?_⟩⟩
      · rw [if_neg hgt]; exact h1
      · rw [if_neg hgt]; exact h2
  | 2 =>
    simp only [CurInv] at hcur
    obtain ⟨h1, h2, h3⟩ := hcur
    cases lf with
    | true =>
      simp only [if_true] at hf
      have hLf : load a f = some (a.getD k 0) := load_nat a k f hf (by omega)
      refine ⟨a, { todo := todo, pc := 3, r1 := r1, tmp := a.getD k 0, r3 := r3 },
        by simp [microOp, hLf], rfl, fun _ _ _ => rfl, Or.inl ⟨rfl, rfl, ?_⟩⟩
      simp only [CurInv]
      exact ⟨h1, h2, h3, by simpa using h1⟩
    | false =>
      simp only [Bool.false_eq_true, if_false] at hf
      have hLf : load a f = some (a.getD (k + 1) 0) := load_nat a (k + 1) f (by omega) hk
      refine ⟨a, { todo := todo, pc := 3, r1 := r1, tmp := a.getD (k + 1) 0, r3 := r3 },
        by simp [microOp, hLf], rfl, fun _ _ _ => rfl, Or.inl ⟨rfl, rfl, ?_⟩⟩
      simp only [CurInv]
      exact ⟨h1, h2, h3, by simpa using h2⟩
  | 3 =>
    simp only [CurInv] at hcur
    obtain ⟨h1, h2, h3, h4⟩ := hcur
    cases lf with
    | true =>
      simp only [if_true] at hs
      have hLs : load a s = some (a.getD (k + 1) 0) := load_nat a (k + 1) s (by omega) hk
      refine ⟨a, { todo := todo, pc := 4, r1 := r1, tmp := tmp, r3 := a.getD (k + 1) 0 },
        by simp [microOp, hLs], rfl, fun _ _ _ => rfl, Or.inl ⟨rfl, rfl, ?_⟩⟩
      simp only [CurInv]
      exact ⟨h1, h2, h3, h4, by simpa using h2⟩
    | false =>
      simp only [Bool.false_eq_true, if_false] at hs
      have hLs : load a s = some (a.getD k 0) := load_nat a k s hs (by omega)
      refine ⟨a, { todo := todo, pc := 4, r1 := r1, tmp := tmp, r3 := a.getD k 0 },
        by simp [microOp, hLs], rfl, fun _ _ _ => rfl, Or.inl ⟨rfl, rfl, ?_⟩⟩
      simp only [CurInv]
      exact ⟨h1, h2, h3, h4, by simpa using h1⟩
  | 4 =>
    simp only [CurInv] at hcur
    obtain ⟨h1, h2, h3, h4, h5⟩ := hcur
    cases lf with
    | true =>
      simp only [if_true] at hf h4 h5
      have hS : store a f r3 = some (a.set k r3) := store_nat a k f r3 hf (by omega)
      refine ⟨a.set k r3, { todo := todo, pc := 5, r1 := r1, tmp := tmp, r3 := r3 },
        by simp [microOp, hS], by simp, ?_, Or.inl ⟨rfl, rfl, ?_⟩⟩
      · intro c hc _
        exact getD_set_ne a k c r3 hc
      · simp only [CurInv, if_true]
        refine ⟨?_, ?_, h3, h4⟩
        · rw [getD_set_eq a k r3 (by omega)]; exact h5
        · rw [getD_set_ne a k (k + 1) r3 (by omega)]; exact h2
    | false =>
      simp only [Bool.false_eq_true, if_false] at hf h4 h5
      have hS : store a f r3 = some (a.set (k + 1) r3) :=
        store_nat a (k + 1) f r3 (by omega) hk
      refine ⟨a.set (k + 1) r3, { todo := todo, pc := 5, r1 := r1, tmp := tmp, r3 := r3 },
        by simp [microOp, hS], by simp, ?_, Or.inl ⟨rfl, rfl, ?_⟩⟩
      · intro c _ hc
        exact getD_set_ne a (k + 1) c r3 hc
      · simp only [CurInv, Bool.false_eq_true, if_false]
        refine ⟨?_, ?_, h3, h4⟩
        · rw [getD_set_ne a (k + 1) k r3 (by omega)]; exact h1
        · rw [getD_set_eq a (k + 1) r3 hk]; exact h5
  | 5 =>
    simp only [CurInv] at hcur
    obtain ⟨h1, h2, h3, h4⟩ := hcur
    cases lf with
    | true =>
      simp only [if_true] at hs h1 h2 h4
      have hS : store a s tmp = some (a.set (k + 1) tmp) :=
        store_nat a (k + 1) s tmp (by omega) hk
      refine ⟨a.set (k + 1) tmp, Thread.next { todo := todo, pc := 5, r1 := r1, tmp := tmp, r3 := r3 },
        by simp [microOp, hS], by simp, ?_, Or.inr ⟨rfl, ?_, ?_⟩⟩
      · intro c _ hc
        exact getD_set_ne a (k + 1) c tmp hc
      · rw [if_pos h3, getD_set_ne a (k + 1) k tmp (by omega)]; exact h1
      · rw [if_pos h3, getD_set_eq a (k + 1) tmp hk]; exact h4
    | false =>
      simp only [Bool.false_eq_true, if_false] at hs h1 h2 h4
      have hS : store a s tmp = some (a.set k tmp) := store_nat a k s tmp hs (by omega)
      refine ⟨a.set k tmp, Thread.next { todo := todo, pc := 5, r1 := r1, tmp := tmp, r3 := r3 },
        by simp [microOp, hS], by simp, ?_, Or.inr ⟨rfl, ?_, ?_⟩⟩
      · intro c hc _
        exact getD_set_ne a k c tmp hc
      · rw [if_pos h3, getD_set_eq a k tmp (by omega)]; exact h4
      · rw [if_pos h3, getD_set_ne a k (k + 1) tmp (by omega)]; exact h2
  | pc + 6 =>
    simp only [CurInv] at hcur

theorem evenPass_getD_pair : ∀ (l : List Int) (q : Nat), 2 * q + 1 < l.length →
    (evenPass l).getD (2 * q) 0
      = (if l.getD (2 * q) 0 > l.getD (2 * q + 1) 0 then l.getD (2 * q + 1) 0
          else l.getD (2 * q) 0) ∧
    (evenPass l).getD (2 * q + 1) 0
      = (if l.getD (2 * q) 0 > l.getD (2 * q + 1) 0 then l.getD (2 * q) 0
          else l.getD (2 * q + 1) 0)
  | [], q, h => by simp at h
  | [_], q, h => by simp at h
  | x :: y :: r, 0, _ => by
    simp only [evenPass]
    split <;> simp [*]
  | x :: y :: r, q + 1, h => by
    have ih := evenPass_getD_pair r q (by simp at h; omega)
    simp only [evenPass, show 2 * (q + 1) = 2 * q + 1 + 1 from by ring]
    split <;> simpa using ih

theorem pass_getD_pair (p : Nat) (a0 : List Int) (i : Int)
    (hg : GoodIndex p a0.length i) :
    (pass p a0).getD (pairPos p i) 0
      = (if a0.getD (pairPos p i) 0 > a0.getD (pairPos p i + 1) 0
          then a0.getD (pairPos p i + 1) 0 else a0.getD (pairPos p i) 0) ∧
    (pass p a0).getD (pairPos p i + 1) 0
      = (if a0.getD (pairPos p i) 0 > a0.getD (pairPos p i + 1) 0
          then a0.getD (pairPos p i) 0 else a0.getD (pairPos p i + 1) 0) := by
  obtain ⟨hodd, h1, hlt⟩ := hg
  unfold pass pairPos
  by_cases hp : p % 2 = 0
  · simp only [hp, if_true] at hlt ⊢
    obtain ⟨q, hq⟩ : ∃ q : Nat, (i - 1).toNat = 2 * q := ⟨(i - 1).toNat / 2, by omega⟩
    rw [hq]
    exact evenPass_getD_pair a0 q (by omega)
  · simp only [hp, if_false] at hlt ⊢
    obtain ⟨q, hq⟩ : ∃ q : Nat, i.toNat = 2 * q + 1 := ⟨i.toNat / 2, by omega⟩
    rw [hq]
    match a0 with
    | [] => simp at hlt; omega
    | x :: r =>
      have := evenPass_getD_pair r q (by simp at hlt; omega)
      simpa [oddPass] using this

theorem pass_getD_uncovered (p : Nat) (a0 : List Int) (c : Nat) (hc : c < a0.length)
    (h : ∀ i, GoodIndex p a0.length i → c ≠ pairPos p i ∧ c ≠ pairPos p i + 1) :
    (pass p a0).getD c 0 = a0.getD c 0 := by
  unfold pass
  by_cases hp : p % 2 = 0
  · simp only [hp, if_true]
    by_cases hce : c % 2 = 0
    · by_cases hlast : c + 1 < a0.length
      · have := h ((c : Int) + 1) ⟨by omega, by omega, by simp [hp]; omega⟩
        simp only [pairPos, hp, if_true] at this
        omega
      · have hl := evenPass_last a0 (by omega)
        have e : a0.length - 1 = c := by omega
        rw [e] at hl
        exact hl
    · have := h (c : Int) ⟨by omega, by omega, by simp [hp]; omega⟩
      simp only [pairPos, hp, if_true] at this
      omega
  · simp only [hp, if_false]
    by_cases hc0 : c = 0
    · subst hc0
      exact oddPass_first a0
    · by_cases hce : c % 2 = 0
      · have := h ((c : Int) - 1) ⟨by omega, by omega, by simp [hp]; omega⟩
        simp only [pairPos, hp, if_false] at this
        omega
      · by_cases hlast : c + 1 < a0.length
        · have := h (c : Int) ⟨by omega, by omega, by simp [hp]; omega⟩
          simp only [pairPos, hp, if_false] at this
          omega
        · have hl := oddPass_last a0 (by omega)
          have e : a0.length - 1 = c := by omega
          rw [e] at hl
          exact hl

theorem pair_disjoint (p : Nat) (n : Int) (i j : Int) (hi : GoodIndex p n i)
    (hj : GoodIndex p n j) (hij : i ≠ j) :
    pairPos p j ≠ pairPos p i ∧ pairPos p j ≠ pairPos p i + 1 ∧
    pairPos p j + 1 ≠ pairPos p i ∧ pairPos p j + 1 ≠ pairPos p i + 1 := by
  obtain ⟨hio, hi1, _⟩ := hi
  obtain ⟨hjo, hj1, _⟩ := hj
  unfold pairPos
  split <;> omega

theorem threadStep_spec (a0 a : List Int) (p : Nat) (th : Thread) (i : Int)
    (rest : List Int) (htodo : th.todo = i :: rest) (hlen : a.length = a0.length)
    (hmax : (a0.length : Int) ≤ INT_MAX) (hg : GoodIndex p a0.length i)
    (hcur : CurInv a0 a (pairPos p i) (decide (p % 2 = 0)) th) :
    ∃ a1 th1, threadStep p th a = some (a1, th1) ∧
      a1.length = a.length ∧
      (∀ c, c ≠ pairPos p i → c ≠ pairPos p i + 1 → a1.getD c 0 = a.getD c 0) ∧
      ((th1.todo = th.todo ∧ th1.pc = th.pc + 1 ∧
          CurInv a0 a1 (pairPos p i) (decide (p % 2 = 0)) th1) ∨
       (th1 = th.next ∧
        a1.getD (pairPos p i) 0 = (pass p a0).getD (pairPos p i) 0 ∧
        a1.getD (pairPos p i + 1) 0 = (pass p a0).getD (pairPos p i + 1) 0)) := by
  have hpp := pass_getD_pair p a0 i hg
  obtain ⟨hodd, h1, hlt⟩ := hg
  rw [hpp.1, hpp.2]
  by_cases hp : p % 2 = 0
  · simp only [hp, if_true] at hlt
    have h32 : int32 (i - 1) = some (i - 1) :=
      int32_of_mem (by unfold INT_MIN; omega) (by omega)
    have hk : ((pairPos p i : Nat) : Int) = i - 1 := by
      simp only [pairPos, hp, if_true]; omega
    have hstep : threadStep p th a = microOp (i - 1) i (i - 1) i th a := by
      unfold threadStep
      rw [htodo]
      simp only [(tmod_two p).2 hp, if_true, h32, Option.some_bind]
    have hd : decide (p % 2 = 0) = true := by simp [hp]
    rw [hstep]
    rw [hd] at hcur ⊢
    exact microOp_spec a0 a (pairPos p i) true th (i - 1) i (i - 1) i
      (by omega) (by omega) (by simp only [if_true]; omega) (by simp only [if_true]; omega)
      (by omega) hcur
  · simp only [hp, if_false] at hlt
    have hp2 : ¬ Int.tmod (p : Int) 2 = 0 := fun h => hp ((tmod_two p).1 h)
    have h32 : int32 (i + 1) = some (i + 1) :=
      int32_of_mem (by unfold INT_MIN; omega) (by omega)
    have hk : ((pairPos p i : Nat) : Int) = i := by
      simp only [pairPos, hp, if_false]; omega
    have hstep : threadStep p th a = microOp i (i + 1) (i + 1) i th a := by
      unfold threadStep
      rw [htodo]
      simp only [hp2, if_false, h32, Option.some_bind]
    have hd : decide (p % 2 = 0) = false := by simp [hp]
    rw [hstep]
    rw [hd] at hcur ⊢
    exact microOp_spec a0 a (pairPos p i) false th i (i + 1) (i + 1) i
      (by omega) (by omega) (by simp only [Bool.false_eq_true, if_false]; omega)
      (by simp only [Bool.false_eq_true, if_false]; omega) (by omega) hcur

theorem curInv_congr (a0 a a1 : List Int) (k : Nat) (lf : Bool) (th : Thread)
    (h1 : a1.getD k 0 = a.getD k 0) (h2 : a1.getD (k + 1) 0 = a.getD (k + 1) 0)
    (h : CurInv a0 a k lf th) : CurInv a0 a1 k lf th := by
  unfold CurInv at h ⊢
  simp only [h1, h2]
  exact h

theorem step_inv (a0 : List Int) (p T : Nat) (init : Nat → List Int) (s : Conc) (tid : Nat)
    (hmax : (a0.length : Int) ≤ INT_MAX) (hinv : PhaseInv a0 p T init s) :
    ∃ s1, Conc.step p T tid s = some s1 ∧ PhaseInv a0 p T init s1 ∧
      (∀ u, u ≠ tid → s1.threads u = s.threads u) ∧
      (tid < T → work (s1.threads tid) ≤ work (s.threads tid) - 1) := by
  by_cases ht : tid < T
  swap
  · exact ⟨s, by simp [Conc.step, ht], hinv, fun _ _ => rfl, fun h => absurd h ht⟩
  cases htodo : (s.threads tid).todo with
  | nil =>
    have hfun : (fun u => if u = tid then s.threads tid else s.threads u) = s.threads := by
      funext u
      split
      · next h => rw [h]
      · rfl
    refine ⟨s, ?_, hinv, fun _ _ => rfl, fun _ => ?_⟩
    · simp only [Conc.step, ht, if_true, threadStep, htodo, Option.map_some', hfun]
    · simp [work, htodo]
  | cons i rest =>
    have hmem : i ∈ (s.threads tid).todo := by rw [htodo]; exact List.mem_cons_self _ _
    have hg := hinv.good tid ht i hmem
    have hthr := hinv.thr tid ht
    simp only [ThreadInv, htodo] at hthr
    obtain ⟨hcur, hrest⟩ := hthr
    have hnd := hinv.nodup tid ht
    rw [htodo] at hnd
    obtain ⟨a1, th1, hstep, hlen1, hframe, hcase⟩ :=
      threadStep_spec a0 s.a p (s.threads tid) i rest htodo hinv.len hmax hg hcur
    have hpc := curInv_pc_le _ _ _ _ _ hcur
    -- the two outcomes, in a common form
    have hsub : ∀ j ∈ th1.todo, j ∈ (s.threads tid).todo := by
      intro j hj
      rcases hcase with ⟨h1, _, _⟩ | ⟨h1, _, _⟩
      · rw [h1] at hj; exact hj
      · rw [h1] at hj
        simp only [Thread.next, htodo, List.tail_cons] at hj
        rw [htodo]
        exact List.mem_cons_of_mem _ hj
    have hrestsub : ∀ j ∈ rest, j ∈ th1.todo := by
      intro j hj
      rcases hcase with ⟨h1, _, _⟩ | ⟨h1, _, _⟩
      · rw [h1, htodo]; exact List.mem_cons_of_mem _ hj
      · rw [h1]
        simpa only [Thread.next, htodo, List.tail_cons] using hj
    have hunch : ∀ j, GoodIndex p a0.length j → j ≠ i →
        a1.getD (pairPos p j) 0 = s.a.getD (pairPos p j) 0 ∧
        a1.getD (pairPos p j + 1) 0 = s.a.getD (pairPos p j + 1) 0 := by
      intro j hj hji
      obtain ⟨d1, d2, d3, d4⟩ := pair_disjoint p a0.length i j hg hj (Ne.symm hji)
      exact ⟨hframe _ d1 d2, hframe _ d3 d4⟩
    have hthr1 : ThreadInv a0 a1 p th1 := by
      rcases hcase with ⟨h1, _, h3⟩ | ⟨h1, _, _⟩
      · simp only [ThreadInv, h1, htodo]
        refine ⟨h3, ?_⟩
        intro j hj
        have hjg := hinv.good tid ht j (by rw [htodo]; exact List.mem_cons_of_mem _ hj)
        have hji : j ≠ i := by
          rintro rfl
          exact (List.nodup_cons.1 hnd).1 hj
        obtain ⟨u1, u2⟩ := hunch j hjg hji
        rw [u1, u2]
        exact hrest j hj
      · rw [h1]
        simp only [ThreadInv, Thread.next, htodo, List.tail_cons]
        match hr : rest with
        | [] => trivial
        | j :: rest2 =>
          simp only
          have hall : ∀ m ∈ j :: rest2,
              a1.getD (pairPos p m) 0 = a0.getD (pairPos p m) 0 ∧
              a1.getD (pairPos p m + 1) 0 = a0.getD (pairPos p m + 1) 0 := by
            intro m hm
            have hmg := hinv.good tid ht m
              (by rw [htodo]; exact List.mem_cons_of_mem _ hm)
            have hmi : m ≠ i := by
              rintro rfl
              exact (List.nodup_cons.1 hnd).1 hm
            obtain ⟨u1, u2⟩ := hunch m hmg hmi
            rw [u1, u2]
            exact hrest m hm
          refine ⟨?_, fun m hm => hall m (List.mem_cons_of_mem _ hm)⟩
          simp only [CurInv]
          exact hall j (List.mem_cons_self _ _)
    refine ⟨{ a := a1, threads := fun u => if u = tid then th1 else s.threads u }, ?_,
      ?_, ?_, ?_⟩
    · simp only [Conc.step, ht, if_true, hstep, Option.map_some']
    · constructor
      · exact hlen1.trans hinv.len
      · intro t ht2 j hj
        by_cases e : t = tid
        · subst e
          simp only [if_true] at hj
          exact hinv.good t ht j (hsub j hj)
        · simp only [e, if_false] at hj
          exact hinv.good t ht2 j hj
      · intro t ht2
        by_cases e : t = tid
        · subst e
          simp only [if_true]
          rcases hcase with ⟨h1, _, _⟩ | ⟨h1, _, _⟩
          · rw [h1, htodo]; exact hnd
          · rw [h1]
            simp only [Thread.next, htodo, List.tail_cons]
            exact (List.nodup_cons.1 hnd).2
        · simp only [e, if_false]
          exact hinv.nodup t ht2
      · intro t1 ht1 t2 ht2 hne j hj
        by_cases e1 : t1 = tid
        · subst e1
          have e2 : ¬ t2 = t1 := fun h => hne h.symm
          simp only [if_true] at hj
          simp only [e2, if_false]
          exact hinv.disj t1 ht1 t2 ht2 hne j (hsub j hj)
        · simp only [e1, if_false] at hj
          by_cases e2 : t2 = tid
          · subst e2
            simp only [if_true]
            intro hj2
            exact hinv.disj t1 ht1 t2 ht2 hne j hj (hsub j hj2)
          · simp only [e2, if_false]
            exact hinv.disj t1 ht1 t2 ht2 hne j hj
      · intro t ht2
        by_cases e : t = tid
        · subst e
          simp only [if_true]
          have hb := hinv.bound t ht
          rw [htodo] at hb
          rcases hcase with ⟨h1, _, _⟩ | ⟨h1, _, _⟩
          · rw [h1, htodo]; exact hb
          · rw [h1]
            simp only [Thread.next, htodo, List.tail_cons]
            simp only [List.length_cons] at hb
            omega
        · simp only [e, if_false]
          exact hinv.bound t ht2
      · intro t ht2
        by_cases e : t = tid
        · subst e
          simp only [if_true]
          exact hthr1
        · simp only [e, if_false]
          have hold := hinv.thr t ht2
          have hcells : ∀ j ∈ (s.threads t).todo,
              a1.getD (pairPos p j) 0 = s.a.getD (pairPos p j) 0 ∧
              a1.getD (pairPos p j + 1) 0 = s.a.getD (pairPos p j + 1) 0 := by
            intro j hj
            have hji : j ≠ i := by
              rintro rfl
              exact hinv.disj t ht2 tid ht e j hj hmem
            exact hunch j (hinv.good t ht2 j hj) hji
          cases hto : (s.threads t).todo with
          | nil => simp only [ThreadInv, hto]
          | cons j rest2 =>
            rw [hto] at hcells
            simp only [ThreadInv, hto] at hold ⊢
            obtain ⟨c1, c2⟩ := hold
            obtain ⟨u1, u2⟩ := hcells j (List.mem_cons_self _ _)
            refine ⟨curInv_congr a0 s.a a1 _ _ _ u1 u2 c1, ?_⟩
            intro m hm
            obtain ⟨v1, v2⟩ := hcells m (List.mem_cons_of_mem _ hm)
            rw [v1, v2]
            exact c2 m hm
      · intro c hc hno
        simp only at hno ⊢
        by_cases hck : c = pairPos p i ∨ c = pairPos p i + 1
        · rcases hcase with ⟨h1, _, _⟩ | ⟨_, f1, f2⟩
          · have := hno tid ht i (by simp only [if_true, h1]; exact hmem)
            rcases hck with h | h
            · exact absurd h this.1
            · exact absurd h this.2
          · rcases hck with h | h
            · rw [h]; exact f1
            · rw [h]; exact f2
        · have hc1 : c ≠ pairPos p i := fun h => hck (Or.inl h)
          have hc2 : c ≠ pairPos p i + 1 := fun h => hck (Or.inr h)
          rw [hframe c hc1 hc2]
          apply hinv.done c hc
          intro t ht2 j hj
          by_cases e : t = tid
          · subst e
            rw [htodo] at hj
            rcases List.mem_cons.1 hj with rfl | hj2
            · exact ⟨hc1, hc2⟩
            · exact hno t ht j (by simp only [if_true]; exact hrestsub j hj2)
          · exact hno t ht2 j (by simp only [e, if_false]; exact hj)
    · intro u hu
      simp only [hu, if_false]
    · intro _
      simp only [if_true]
      rcases hcase with ⟨h1, h2, _⟩ | ⟨h1, _, _⟩
      · simp only [work, h1, h2, htodo, List.length_cons]
        omega
      · rw [h1]
        simp only [work, Thread.next, htodo, List.tail_cons, List.length_cons]
        omega

theorem runSchedule_append (phase : Int) (T : Nat) : ∀ (l1 l2 : List Nat) (s : Conc),
    runSchedule phase T (l1 ++ l2) s
      = (runSchedule phase T l1 s).bind (runSchedule phase T l2)
  | [], l2, s => by simp [runSchedule]
  | t :: l1, l2, s => by
    simp only [List.cons_append, runSchedule]
    cases Conc.step phase T t s with
    | none => simp
    | some s1 => simp [runSchedule_append phase T l1 l2 s1]

theorem runSchedule_inv (a0 : List Int) (p T : Nat) (init : Nat → List Int)
    (hmax : (a0.length : Int) ≤ INT_MAX) : ∀ (sched : List Nat) (s : Conc),
    PhaseInv a0 p T init s →
    ∃ s1, runSchedule p T sched s = some s1 ∧ PhaseInv a0 p T init s1 ∧
      ∀ u, work (s1.threads u) ≤ work (s.threads u)
  | [], s, h => ⟨s, rfl, h, fun _ => le_refl _⟩
  | t :: rest, s, h => by
    obtain ⟨s1, hs1, hinv1, hoth, hw⟩ := step_inv a0 p T init s t hmax h
    obtain ⟨s2, hs2, hinv2, hw2⟩ := runSchedule_inv a0 p T init hmax rest s1 hinv1
    refine ⟨s2, by simp [runSchedule, hs1, hs2], hinv2, ?_⟩
    intro u
    refine le_trans (hw2 u) ?_
    by_cases e : u = t
    · subst e
      by_cases ht : u < T
      · exact le_trans (hw ht) (Nat.sub_le _ _)
      · have : s1 = s := by
          have := hs1
          simp only [Conc.step, ht, if_false] at this
          exact (Option.some.inj this).symm
        rw [this]
    · rw [hoth u e]

theorem run_replicate (a0 : List Int) (p T : Nat) (init : Nat → List Int)
    (hmax : (a0.length : Int) ≤ INT_MAX) (t : Nat) (ht : t < T) : ∀ (m : Nat) (s : Conc),
    PhaseInv a0 p T init s →
    ∃ s1, runSchedule p T (List.replicate m t) s = some s1 ∧ PhaseInv a0 p T init s1 ∧
      (∀ u, work (s1.threads u) ≤ work (s.threads u)) ∧
      work (s1.threads t) ≤ work (s.threads t) - m
  | 0, s, h => ⟨s, rfl, h, fun _ => le_refl _, by simp⟩
  | m + 1, s, h => by
    obtain ⟨s1, hs1, hinv1, hoth, hw⟩ := step_inv a0 p T init s t hmax h
    obtain ⟨s2, hs2, hinv2, hmono, hw2⟩ := run_replicate a0 p T init hmax t ht m s1 hinv1
    have hw1 := hw ht
    refine ⟨s2, by simp [List.replicate_succ, runSchedule, hs1, hs2], hinv2, ?_, by omega⟩
    intro u
    refine le_trans (hmono u) ?_
    by_cases e : u = t
    · subst e
      omega
    · rw [hoth u e]

theorem run_drain (a0 : List Int) (p T : Nat) (init : Nat → List Int)
    (hmax : (a0.length : Int) ≤ INT_MAX) (K : Nat → Nat) : ∀ (ts : List Nat) (s : Conc),
    (∀ t ∈ ts, t < T) → PhaseInv a0 p T init s →
    (∀ t ∈ ts, work (s.threads t) ≤ K t) →
    ∃ s1, runSchedule p T (ts.flatMap fun t => List.replicate (K t) t) s = some s1 ∧
      PhaseInv a0 p T init s1 ∧
      (∀ u, work (s1.threads u) ≤ work (s.threads u)) ∧
      ∀ t ∈ ts, work (s1.threads t) = 0
  | [], s, _, h, _ => ⟨s, rfl, h, fun _ => le_refl _, by simp⟩
  | t :: ts, s, hT, h, hK => by
    obtain ⟨s1, hs1, hinv1, hmono1, hw1⟩ :=
      run_replicate a0 p T init hmax t (hT t (List.mem_cons_self _ _)) (K t) s h
    obtain ⟨s2, hs2, hinv2, hmono2, hz⟩ := run_drain a0 p T init hmax K ts s1
      (fun u hu => hT u (List.mem_cons_of_mem _ hu)) hinv1
      (fun u hu => le_trans (hmono1 u) (hK u (List.mem_cons_of_mem _ hu)))
    refine ⟨s2, ?_, hinv2, fun u => le_trans (hmono2 u) (hmono1 u), ?_⟩
    · simp only [List.flatMap_cons, runSchedule_append, hs1, Option.some_bind, hs2]
    · intro u hu
      rcases List.mem_cons.1 hu with rfl | hu2
      · have h1 := hmono2 u
        have h2 := hK u (List.mem_cons_self _ _)
        omega
      · exact hz u hu2

theorem eq_of_getD_eq (l1 l2 : List Int) (hl : l1.length = l2.length)
    (h : ∀ c, c < l2.length → l1.getD c 0 = l2.getD c 0) : l1 = l2 := by
  apply List.ext_getElem hl
  intro c h1 h2
  have := h c h2
  rwa [List.getD_eq_getElem _ _ h1, List.getD_eq_getElem _ _ h2] at this

theorem phaseInv_finished (a0 : List Int) (p T : Nat) (init : Nat → List Int) (s : Conc)
    (hinv : PhaseInv a0 p T init s) (hz : ∀ t, t < T → work (s.threads t) = 0) :
    s.a = pass p a0 := by
  have hempty : ∀ t, t < T → (s.threads t).todo = [] := by
    intro t ht
    have hw := hz t ht
    have hthr := hinv.thr t ht
    cases hto : (s.threads t).todo with
    | nil => rfl
    | cons i rest =>
      simp only [ThreadInv, hto] at hthr
      have hpc := curInv_pc_le _ _ _ _ _ hthr.1
      simp only [work, hto, List.length_cons] at hw
      omega
  apply eq_of_getD_eq _ _ (by rw [hinv.len, length_pass])
  intro c hc
  rw [length_pass] at hc
  apply hinv.done c hc
  intro t ht i hi
  rw [hempty t ht] at hi
  simp at hi

theorem evenIndices_lb : ∀ (fuel : Nat) (n i : Int), ∀ x ∈ evenIndices fuel n i, i ≤ x
  | 0, _, _ => by simp [evenIndices]
  | fuel + 1, n, i => by
    intro x hx
    simp only [evenIndices] at hx
    split at hx
    · rcases List.mem_cons.1 hx with rfl | hx2
      · exact le_refl _
      · have := evenIndices_lb fuel n (i + 2) x hx2
        omega
    · simp at hx

theorem oddIndices_lb : ∀ (fuel : Nat) (n i : Int), ∀ x ∈ oddIndices fuel n i, i ≤ x
  | 0, _, _ => by simp [oddIndices]
  | fuel + 1, n, i => by
    intro x hx
    simp only [oddIndices] at hx
    split at hx
    · rcases List.mem_cons.1 hx with rfl | hx2
      · exact le_refl _
      · have := oddIndices_lb fuel n (i + 2) x hx2
        omega
    · simp at hx

theorem evenIndices_nodup : ∀ (fuel : Nat) (n i : Int), (evenIndices fuel n i).Nodup
  | 0, _, _ => by simp [evenIndices]
  | fuel + 1, n, i => by
    simp only [evenIndices]
    split
    · refine List.nodup_cons.2 ⟨?_, evenIndices_nodup fuel n (i + 2)⟩
      intro h
      have := evenIndices_lb fuel n (i + 2) i h
      omega
    · exact List.nodup_nil

theorem oddIndices_nodup : ∀ (fuel : Nat) (n i : Int), (oddIndices fuel n i).Nodup
  | 0, _, _ => by simp [oddIndices]
  | fuel + 1, n, i => by
    simp only [oddIndices]
    split
    · refine List.nodup_cons.2 ⟨?_, oddIndices_nodup fuel n (i + 2)⟩
      intro h
      have := oddIndices_lb fuel n (i + 2) i h
      omega
    · exact List.nodup_nil

theorem phaseIndices_nodup (n phase : Int) : (phaseIndices n phase).Nodup := by
  unfold phaseIndices
  split
  · exact evenIndices_nodup _ _ _
  · exact oddIndices_nodup _ _ _

theorem mem_evenIndices : ∀ (fuel : Nat) (n i x : Int), x % 2 = i % 2 → i ≤ x → x < n →
    x - i < 2 * fuel → x ∈ evenIndices fuel n i
  | 0, _, _, _, _, _, _, hf => by omega
  | fuel + 1, n, i, x, hpar, hle, hlt, hf => by
    have hin : i < n := by omega
    simp only [evenIndices, hin, if_true, List.mem_cons]
    by_cases e : x = i
    · exact Or.inl e
    · exact Or.inr (mem_evenIndices fuel n (i + 2) x (by omega) (by omega) hlt (by omega))

theorem mem_oddIndices : ∀ (fuel : Nat) (n i x : Int), x % 2 = i % 2 → i ≤ x → x < n - 1 →
    x - i < 2 * fuel → x ∈ oddIndices fuel n i
  | 0, _, _, _, _, _, _, hf => by omega
  | fuel + 1, n, i, x, hpar, hle, hlt, hf => by
    have hin : i < n - 1 := by omega
    simp only [oddIndices, hin, if_true, List.mem_cons]
    by_cases e : x = i
    · exact Or.inl e
    · exact Or.inr (mem_oddIndices fuel n (i + 2) x (by omega) (by omega) hlt (by omega))

theorem mem_phaseIndices (p : Nat) (n : Int) (i : Int) (hg : GoodIndex p n i) :
    i ∈ phaseIndices n p := by
  obtain ⟨hodd, h1, hlt⟩ := hg
  unfold phaseIndices
  by_cases hp : p % 2 = 0
  · simp only [hp, if_true] at hlt
    simp only [(tmod_two p).2 hp, if_true]
    exact mem_evenIndices _ n 1 i (by omega) h1 hlt (by omega)
  · simp only [hp, if_false] at hlt
    have hp2 : ¬ Int.tmod (p : Int) 2 = 0 := fun h => hp ((tmod_two p).1 h)
    simp only [hp2, if_false]
    exact mem_oddIndices _ n 1 i (by omega) h1 (by omega) (by omega)

theorem getD_mem_of_lt (assign : List (List Int)) (t : Nat) (ht : t < assign.length) :
    assign.getD t [] ∈ assign := by
  rw [List.getD_eq_getElem _ _ ht]
  exact List.getElem_mem ht

theorem phaseInv_init (a : List Int) (n : Int) (p T : Nat) (plan : PhasePlan)
    (hn : n = a.length) (hv : ValidPlan T n p plan) :
    PhaseInv a p T (fun t => plan.assign.getD t [])
      { a := a, threads := fun t => Thread.start (plan.assign.getD t []) } := by
  obtain ⟨hT, hperm⟩ := hv
  subst hn
  have hnd : plan.assign.flatten.Nodup := hperm.nodup_iff.2 (phaseIndices_nodup _ _)
  obtain ⟨hnd1, hnd2⟩ := List.nodup_flatten.1 hnd
  constructor
  · rfl
  · intro t ht i hi
    simp only [Thread.start] at hi
    apply phaseIndices_good p _ i
    apply hperm.mem_iff.1
    exact List.mem_flatten_of_mem (getD_mem_of_lt _ t (by omega)) hi
  · intro t ht
    simp only [Thread.start]
    exact hnd1 _ (getD_mem_of_lt _ t (by omega))
  · intro t1 ht1 t2 ht2 hne i hi hi2
    simp only [Thread.start] at hi hi2
    have hlt1 : t1 < plan.assign.length := by omega
    have hlt2 : t2 < plan.assign.length := by omega
    rw [List.getD_eq_getElem _ _ hlt1] at hi
    rw [List.getD_eq_getElem _ _ hlt2] at hi2
    have hpw := List.pairwise_iff_getElem.1 hnd2
    rcases Nat.lt_or_gt_of_ne hne with h | h
    · exact hpw t1 t2 hlt1 hlt2 h hi hi2
    · exact hpw t2 t1 hlt2 hlt1 h hi2 hi
  · intro t _
    simp [Thread.start]
  · intro t _
    simp only [Thread.start, ThreadInv]
    split
    · trivial
    · exact ⟨by simp [CurInv], fun _ _ => by simp⟩
  · intro c hc hno
    simp only [Thread.start] at hno
    symm
    apply pass_getD_uncovered p a c hc
    intro i hg
    have hmem := hperm.mem_iff.2 (mem_phaseIndices p _ i hg)
    obtain ⟨l, hl, hil⟩ := List.mem_flatten.1 hmem
    obtain ⟨t, ht, rfl⟩ := List.getElem_of_mem hl
    have := hno t (by omega) i (by rw [List.getD_eq_getElem _ _ ht]; exact hil)
    exact this

theorem parPhase_eq (a : List Int) (n : Int) (p T : Nat) (plan : PhasePlan)
    (hn : n = a.length) (hmax : n ≤ INT_MAX) (hv : ValidPlan T n p plan) :
    parPhase p T plan a = some (pass p a) := by
  have hinit := phaseInv_init a n p T plan hn hv
  have hmax2 : (a.length : Int) ≤ INT_MAX := by rw [← hn]; exact hmax
  obtain ⟨s1, hs1, hinv1, hmono1⟩ :=
    runSchedule_inv a p T _ hmax2 plan.sched _ hinit
  have hTl : plan.assign.length = T := hv.1
  obtain ⟨s2, hs2, hinv2, _, hz⟩ := run_drain a p T _ hmax2
    (fun t => 6 * (plan.assign.getD t []).length) (List.range plan.assign.length) s1
    (by intro t ht; rw [hTl] at ht; exact List.mem_range.1 ht) hinv1
    (by
      intro t ht
      rw [hTl] at ht
      have hb := hinv1.bound t (List.mem_range.1 ht)
      simp only [work] at hb ⊢
      omega)
  have hfin := phaseInv_finished a p T _ s2 hinv2
    (by intro t ht; exact hz t (by rw [hTl]; exact List.mem_range.2 ht))
  simp only [parPhase, runSchedule_append, hs1, Option.some_bind, drain, hs2,
    Option.map_some', hfin]

theorem parLoop_eq (T : Nat) (plans : Nat → PhasePlan) (fuel : Nat) :
    ∀ (k p : Nat) (n : Int) (a : List Int),
    n = a.length → n ≤ INT_MAX → n = p + k → k < fuel →
    (∀ q : Nat, p ≤ q → q < p + k → ValidPlan T n q (plans q)) →
    parLoop T plans fuel n p a = some (passes p k a) := by
  induction fuel with
  | zero => intro k p n a _ _ _ hf; omega
  | succ fuel ih =>
    intro k p n a hn hmax hb hf hv
    match k with
    | 0 =>
      have : ¬ (p : Int) < n := by omega
      simp [parLoop, this, passes]
    | k + 1 =>
      have hlt : (p : Int) < n := by omega
      have hph := parPhase_eq a n p T (plans p) hn hmax (hv p (le_refl _) (by omega))
      have h32 : int32 ((p : Int) + 1) = some ((p : Int) + 1) :=
        int32_of_mem (by unfold INT_MIN; omega) (by omega)
      have hrec := ih k (p + 1) n (pass p a) (by rw [length_pass]; exact hn) hmax
        (by push_cast; omega) (by omega) (fun q h1 h2 => hv q (by omega) (by omega))
      simp only [Nat.cast_add, Nat.cast_one] at hrec
      simp [parLoop, hlt, hph, h32, hrec, passes]

theorem Odd_even_par_eq (T : Nat) (plans : Nat → PhasePlan) (a : List Int) (n : Int)
    (hn : n = a.length) (hmax : n ≤ INT_MAX) (hv : ValidPlans T n plans) :
    Odd_even_par T plans a n = some (passes 0 a.length a) := by
  have h := parLoop_eq T plans (n.toNat + 1) a.length 0 n a hn hmax (by omega) (by omega)
    (fun q _ h2 => hv q (by omega))
  simpa [Odd_even_par] using h

/-- C3: for every array with `n` slots and every two thread counts `T1 ≥ 1`,
`T2 ≥ 1`, `Odd_even` executed by `T1` threads and by `T2` threads returns the
same array, equal to the result of the sequential execution, for every way of
dividing the iterations of each phase among the threads and every interleaving
of the threads' memory accesses within a phase. -/
theorem Odd_even_thread_count_invariant (a : List Int) (n : Int) (T1 T2 : Nat)
    (plans1 plans2 : Nat → PhasePlan) (hn : n = a.length) (hmax : n ≤ INT_MAX)
    (_hT1 : 1 ≤ T1) (_hT2 : 1 ≤ T2)
    (hv1 : ValidPlans T1 n plans1) (hv2 : ValidPlans T2 n plans2) :
    ∃ b, Odd_even_par T1 plans1 a n = some b ∧ Odd_even_par T2 plans2 a n = some b ∧
      (Odd_even a n).map Prod.fst = some b := by
  refine ⟨passes 0 a.length a, Odd_even_par_eq T1 plans1 a n hn hmax hv1,
    Odd_even_par_eq T2 plans2 a n hn hmax hv2, ?_⟩
  rw [Odd_even_eq a n hn hmax]
  rfl

/-- Instance of C3: `[4, 3, 2, 1, 0]` sorted by one thread and by sixteen
threads, two of which share the work and interleave their memory accesses. -/
theorem Odd_even_thread_count_invariant_witness :
    ∃ b, Odd_even_par 1 (fun p => { assign := [phaseIndices 5 p], sched := [] })
          [4, 3, 2, 1, 0] 5 = some b ∧
      Odd_even_par 16
          (fun p => if p % 2 = 0
            then { assign := [[3], [1], [], [], [], [], [], [], [], [], [], [], [], [], [], []],
                   sched := [0, 1, 1, 0, 7, 0, 1, 1, 0] }
            else { assign := [[], [], [], [], [], [], [], [], [], [], [], [], [], [], [3], [1]],
                   sched := [15, 14, 14, 15] })
          [4, 3, 2, 1, 0] 5 = some b ∧
      (Odd_even [4, 3, 2, 1, 0] 5).map Prod.fst = some b :=
  Odd_even_thread_count_invariant [4, 3, 2, 1, 0] 5 1 16 _ _ (by decide) (by decide)
    (by decide) (by decide) (by decide) (by decide)

end OddEven
